import Mathlib

/-!
# Ringer: a ring buffer (queue) for pointers

A shallow embedding of `src/ringer.c` / `src/ringer.h` and a verification of
its queue, positional-removal and resize operations.

Modelling conventions.

* `rg_size_t` (`uint64_t`) values are natural numbers; the C operations on them
  that can wrap are written with an explicit `% U64`.  `rg_pos_t` (`int64_t`) is
  `Int`.
* An item is a `void*`: an address, with `NULL` the address `0`.
* The flexible array member `data[]` is a `List Item` whose length is the
  number of slots that were allocated.  `rg_malloc`/`rg_realloc` are assumed to
  succeed and to hand out exactly the bytes asked for; the byte count is the
  macro `rg_struct_size`, computed in `size_t` as in the source, so it wraps
  for a `size` from `2^61 - 4` on.  The four header fields are the fields of
  the record and are not part of the modelled storage.  Fresh slots hold
  indeterminate values, supplied by a parameter `junk`.
* A call has undefined behaviour in C when it touches a slot outside the
  allocated storage or divides by zero; such a call evaluates to `none`.
-/

set_option linter.all false

namespace Ringer

/-- An item is a `void*`, modelled by its address. -/
abbrev Item := Nat

/-- The null pointer. -/
def NULL : Item := 0

/-- Number of values of `rg_size_t` (`uint64_t`): `2^64`. -/
def U64 : Nat := 18446744073709551616

/-- Ringer minimum size (`#define RG_MIN_SIZE 2`). -/
def RG_MIN_SIZE : Nat := 2

/-- C truth value returned by the `int` functions (`#define rg_true 1`). -/
def rg_true : Nat := 1

/-- C false value returned by the `int` functions (`#define rg_false 0`). -/
def rg_false : Nat := 0

/-- Size of one slot, `sizeof( void* )`, on a 64-bit target. -/
def rg_unit_size : Nat := 8

/-- Size of the struct header, `sizeof( rg_s )`: four `rg_size_t` fields. -/
def sizeof_rg_s : Nat := 32

/-- Bytes needed by a struct with `size` slots, as a mathematical number that
does not wrap. -/
def struct_bytes (size : Nat) : Nat := sizeof_rg_s + size * rg_unit_size

/-- The macro `rg_struct_size(size)`, `( sizeof(rg_s) + size*sizeof(void*) )`,
computed in `size_t`: the product and the sum wrap modulo `2^64`. -/
def rg_struct_size (size : Nat) : Nat := (sizeof_rg_s + size * rg_unit_size % U64) % U64

/-- Number of slots that a block of `bytes` bytes holds behind the header; a
block that is not larger than the header holds none. -/
def rg_slots (bytes : Nat) : Nat := (bytes - sizeof_rg_s) / rg_unit_size

/-- Ringer struct (`struct rg_struct_s`). -/
structure rg_s where
  ridx : Nat
  widx : Nat
  cnt : Nat
  size : Nat
  data : List Item
deriving DecidableEq, Repr

/-- Reading `rg_nth( rg, pos )`; `none` when `pos` is outside the storage. -/
def rg_nth (data : List Item) (pos : Nat) : Option Item := data[pos]?

/-- Writing `rg_nth( rg, pos ) = item`; `none` when `pos` is outside the storage. -/
def rg_nth_set (data : List Item) (pos : Nat) (item : Item) : Option (List Item) :=
  if pos < data.length then some (data.set pos item) else none

/-- Storage handed out by `rg_malloc( bytes )`: the slots that the block holds
behind the header, with indeterminate contents `junk`. -/
def rg_malloc (bytes : Nat) (junk : Nat → Item) : List Item :=
  (List.range (rg_slots bytes)).map junk

/-- Storage handed out by `rg_realloc( rg, bytes )`: the old contents up to the
smaller of the two lengths, then indeterminate contents `junk`. -/
def rg_realloc (data : List Item) (bytes : Nat) (junk : Nat → Item) : List Item :=
  data.take (rg_slots bytes) ++ (List.range (rg_slots bytes - data.length)).map junk

/-- The libc call `memmove( &data[dst], &data[src], n * rg_unit_size )`, counted in
slots: the `n` slots starting at `src` are copied, as if through a temporary, to
the `n` slots starting at `dst`.  `none` when a range leaves the storage. -/
def memmove (data : List Item) (dst src n : Nat) : Option (List Item) :=
  if src + n ≤ data.length ∧ dst + n ≤ data.length then
    some ((List.range data.length).map fun i =>
      if dst ≤ i ∧ i < dst + n then data.getD (src + (i - dst)) NULL else data.getD i NULL)
  else none

/-- The source function `rg_next_index`: `( ( rg_size_t )( idx + 1 ) ) % size`. -/
def rg_next_index (size idx : Nat) : Option Nat :=
  if size = 0 then none else some (((idx + 1) % U64) % size)

/-- The source function `rg_prev_index`: `( ( rg_size_t )( idx - 1 + size ) ) % size`. -/
def rg_prev_index (size idx : Nat) : Option Nat :=
  if size = 0 then none else some (((idx + (U64 - 1) + size) % U64) % size)

/-- The source function `rg_count`. -/
def rg_count (rg : rg_s) : Nat := rg.cnt

/-- The source function `rg_is_empty`: `rg->cnt == 0`. -/
def rg_is_empty (rg : rg_s) : Bool := rg.cnt == 0

/-- The source function `rg_is_full`: `rg->cnt >= rg->size`. -/
def rg_is_full (rg : rg_s) : Bool := decide (rg.cnt ≥ rg.size)

/-- The source function `rg_size`. -/
def rg_size (rg : rg_s) : Nat := rg.size

/-- The source function `rg_new`. The minimum size is not checked, and the block
asked of `rg_malloc` has `rg_struct_size( size )` bytes. -/
def rg_new (size : Nat) (junk : Nat → Item) : rg_s :=
  { ridx := 0, widx := 0, cnt := 0, size := size,
    data := rg_malloc (rg_struct_size size) junk }

/-- The source function `rg_put`. -/
def rg_put (rg : rg_s) (item : Item) : Option (Nat × rg_s) :=
  if !rg_is_full rg then do
    let data ← rg_nth_set rg.data rg.widx item
    let widx ← rg_next_index rg.size rg.widx
    some (rg_true, { rg with data := data, widx := widx, cnt := (rg.cnt + 1) % U64 })
  else
    some (rg_false, rg)

/-- The source function `rg_get`. -/
def rg_get (rg : rg_s) : Option (Item × rg_s) :=
  if !rg_is_empty rg then do
    let item ← rg_nth rg.data rg.ridx
    let ridx ← rg_next_index rg.size rg.ridx
    some (item, { rg with ridx := ridx, cnt := (rg.cnt + (U64 - 1)) % U64 })
  else
    some (NULL, rg)

/-- The source function `rg_put_front`. -/
def rg_put_front (rg : rg_s) (item : Item) : Option (Nat × rg_s) :=
  if !rg_is_full rg then do
    let ridx ← rg_prev_index rg.size rg.ridx
    let data ← rg_nth_set rg.data ridx item
    some (rg_true, { rg with ridx := ridx, data := data, cnt := (rg.cnt + 1) % U64 })
  else
    some (rg_false, rg)

/-- The source function `rg_get_back`. -/
def rg_get_back (rg : rg_s) : Option (Item × rg_s) :=
  if !rg_is_empty rg then do
    let widx ← rg_prev_index rg.size rg.widx
    let item ← rg_nth rg.data widx
    some (item, { rg with widx := widx, cnt := (rg.cnt + (U64 - 1)) % U64 })
  else
    some (NULL, rg)

/-- The source function `rg_peek`. -/
def rg_peek (rg : rg_s) : Option (Item × rg_s) :=
  if !rg_is_empty rg then do
    let item ← rg_nth rg.data rg.ridx
    some (item, rg)
  else some (NULL, rg)

/-- The source function `rg_peek_back`. -/
def rg_peek_back (rg : rg_s) : Option (Item × rg_s) :=
  if !rg_is_empty rg then do
    let idx ← rg_prev_index rg.size rg.widx
    let item ← rg_nth rg.data idx
    some (item, rg)
  else some (NULL, rg)

/-- The loop of `rg_rotate`, one iteration per unit of `fuel`.  Every iteration
reads slot `a` and then increments `a`, so a run that stays inside the storage
makes at most `data.length - a` iterations; `rg_rotate` supplies that much, and
running out of fuel therefore coincides with leaving the storage.  The
increments `a++` and `n++` follow an access to slots `a` and `n` inside the
storage, so they do not wrap. -/
def rg_rotate_loop : Nat → List Item → Nat → Nat → Nat → Nat → Option (List Item)
  | fuel, data, a, m, n, b =>
    if a = n then some data
    else
      match fuel with
      | 0 => none
      | fuel + 1 =>
        match rg_nth data a, rg_nth data n with
        | some x, some y =>
          let data1 := (data.set a y).set n x
          if n + 1 = b then rg_rotate_loop fuel data1 (a + 1) m m b
          else if a + 1 = m then rg_rotate_loop fuel data1 (a + 1) (n + 1) (n + 1) b
          else rg_rotate_loop fuel data1 (a + 1) m (n + 1) b
        | _, _ => none

/-- The source function `rg_rotate`. -/
def rg_rotate (rg : rg_s) (a m b : Nat) : Option rg_s := do
  let data ← rg_rotate_loop (rg.data.length - a) rg.data a m m b
  some { rg with data := data }

/-- The source function `rg_resize`.  The storage is reallocated only on the
non-empty path, as in the source, to `rg_struct_size( size )` bytes. -/
def rg_resize (rg : rg_s) (size : Nat) (junk : Nat → Item) : Option (Nat × rg_s) :=
  if size < rg.cnt ∨ size < RG_MIN_SIZE then some (rg_false, rg)
  else if rg_is_empty rg then
    some (rg_true, { rg with ridx := 0, widx := 0, size := size })
  else do
    let rg1 ←
      if rg.widx ≤ rg.ridx then
        if rg.ridx ≠ 0 then rg_rotate rg 0 rg.ridx rg.size else some rg
      else do
        let data ← memmove rg.data 0 rg.ridx rg.cnt
        some { rg with data := data }
    some (rg_true,
      { ridx := 0, widx := rg1.cnt % size, cnt := rg1.cnt, size := size,
        data := rg_realloc rg1.data (rg_struct_size size) junk })

/-- The source function `rg_ram`.  The result of `rg_resize` is ignored, as in
the source, and the store is unconditional. -/
def rg_ram (rg : rg_s) (item : Item) (junk : Nat → Item) : Option (Nat × rg_s) := do
  let (ret, rg1) ←
    if rg_is_full rg then do
      let r ← rg_resize rg ((rg_size rg * 2) % U64) junk
      some (rg_true, r.2)
    else some (rg_false, rg)
  let data ← rg_nth_set rg1.data rg1.widx item
  let widx ← rg_next_index rg1.size rg1.widx
  some (ret, { rg1 with data := data, widx := widx, cnt := (rg1.cnt + 1) % U64 })

/-- The normalized offset `npos` computed at the top of `rg_get_nth`; for a
negative `pos` the sum `rg->cnt + pos` is taken in `rg_size_t`, i.e. modulo
`2^64`. -/
def rg_npos (rg : rg_s) (pos : Int) : Nat :=
  if pos < 0 then (((rg.cnt : Int) + pos) % (U64 : Int)).toNat else pos.toNat

/-- The source function `rg_get_nth`. -/
def rg_get_nth (rg : rg_s) (pos : Int) : Option (Item × rg_s) :=
  let npos := rg_npos rg pos
  if rg_is_empty rg || decide (npos ≥ rg.cnt) then some (NULL, rg)
  else
    let cnt := (rg.cnt + (U64 - 1)) % U64
    if rg.widx > rg.ridx then do
      let idx := (rg.ridx + npos) % U64
      let item ← rg_nth rg.data idx
      if idx ≠ rg.ridx then do
        let data ← memmove rg.data idx (idx + 1) ((rg.widx + (U64 - idx)) % U64)
        some (item, { rg with cnt := cnt, data := data, widx := (rg.widx + (U64 - 1)) % U64 })
      else
        some (item, { rg with cnt := cnt, ridx := (rg.ridx + 1) % U64 })
    else if rg.size = 0 then none
    else do
      let idx := ((rg.ridx + npos) % U64) % rg.size
      let item ← rg_nth rg.data idx
      if idx < rg.widx then do
        let data ←
          if idx ≠ (rg.widx + (U64 - 1)) % U64 then
            memmove rg.data idx (idx + 1) ((rg.widx + (U64 - idx) + (U64 - 1)) % U64)
          else some rg.data
        let widx ← rg_prev_index rg.size rg.widx
        some (item, { rg with cnt := cnt, data := data, widx := widx })
      else do
        let data ←
          if idx ≠ rg.ridx then
            memmove rg.data (rg.ridx + 1) rg.ridx ((idx + (U64 - rg.ridx)) % U64)
          else some rg.data
        let ridx ← rg_next_index rg.size rg.ridx
        some (item, { rg with cnt := cnt, data := data, ridx := ridx })

/-- Structural well-formedness of a buffer: the storage holds `size` slots, the
fields are `rg_size_t` values, both cursors are inside the storage, and the
write cursor is `cnt` slots after the read cursor. -/
def wf (rg : rg_s) : Prop :=
  rg.data.length = rg.size ∧ rg.size < U64 ∧ rg.ridx < rg.size ∧ rg.widx < rg.size ∧
    rg.cnt ≤ rg.size ∧ rg.widx = (rg.ridx + rg.cnt) % rg.size

instance (rg : rg_s) : Decidable (wf rg) := by unfold wf; infer_instance

/-- The storage of the buffer fits the address space: the byte size of the
struct with `size` slots is representable in `size_t`, so that
`rg_struct_size( size )` does not wrap. -/
def fits (rg : rg_s) : Prop := struct_bytes rg.size < U64

instance (rg : rg_s) : Decidable (fits rg) := by unfold fits; infer_instance

/-- Front-to-back contents: logical element `i` is the slot `(ridx + i) % size`. -/
def contents (rg : rg_s) : List Item :=
  (List.range rg.cnt).map fun i => rg.data.getD ((rg.ridx + i) % rg.size) NULL

/-- The slot whose old value ends up in slot `i` when the loop of `rg_rotate` is
run from the state `(a, m, n, b)`: the three runs `[n, b)`, `[m, n)`, `[a, m)` are
laid out in this order from slot `a` on, and slots outside `[a, b)` stay. -/
def rot_src (a m n b i : Nat) : Nat :=
  if i < a ∨ b ≤ i then i
  else if i - a < b - n then n + (i - a)
  else if i - a < b - m then m + (i - a - (b - n))
  else a + (i - a - (b - m))

/-- The call sequence `rg_get( rg )` repeated `k` times, with the returned items in
call order. -/
def rg_get_n : Nat → rg_s → Option (List Item × rg_s)
  | 0, rg => some ([], rg)
  | k + 1, rg => do
    let r ← rg_get rg
    let rs ← rg_get_n k r.2
    some (r.1 :: rs.1, rs.2)

/-- One call of the queue interface: `rg_put( rg, item )` or `rg_get( rg )`. -/
inductive Op where
  | put (item : Item)
  | get
deriving DecidableEq, Repr

/-- Result of running a sequence of calls: it ran to the end (`done`, with the
final buffer and the items the `rg_get` calls returned, in call order), or a
call broke the protocol (`illegal`: `rg_put` on a full buffer or `rg_get` on an
empty one), or a call had undefined behaviour (`undefined`). -/
inductive Run where
  | done (rg : rg_s) (out : List Item)
  | illegal
  | undefined
deriving DecidableEq, Repr

/-- Prepend an item to the returned items of a finished run. -/
def Run.push (item : Item) : Run → Run
  | .done rg out => .done rg (item :: out)
  | .illegal => .illegal
  | .undefined => .undefined

/-- Run a sequence of `rg_put` / `rg_get` calls on a buffer. -/
def run : rg_s → List Op → Run
  | rg, [] => .done rg []
  | rg, .put item :: ops =>
    if rg_is_full rg then .illegal
    else
      match rg_put rg item with
      | some r => run r.2 ops
      | none => .undefined
  | rg, .get :: ops =>
    if rg_is_empty rg then .illegal
    else
      match rg_get rg with
      | some r => Run.push r.1 (run r.2 ops)
      | none => .undefined

/-- The items given to the `rg_put` calls of a sequence, in call order. -/
def put_items : List Op → List Item
  | [] => []
  | .put item :: ops => item :: put_items ops
  | .get :: ops => put_items ops

/-- The number of `rg_get` calls of a sequence. -/
def get_count : List Op → Nat
  | [] => 0
  | .put _ :: ops => get_count ops
  | .get :: ops => get_count ops + 1

/-- A sample call sequence: put 10, 20, 30, get, put 40, 50, get. -/
def fifo_ops : List Op :=
  [Op.put 10, Op.put 20, Op.put 30, Op.get, Op.put 40, Op.put 50, Op.get]

/-- A `memmove` call: destination slot, source slot and number of slots. -/
structure Move where
  dst : Nat
  src : Nat
  n : Nat
deriving DecidableEq, Repr

/-- The `memmove` call issued by `rg_get_nth( rg, pos )`, if any; `none` when the
call returns early or takes a branch without `memmove`.  Follows the branches of
the source function, with the same index arithmetic as `rg_get_nth`. -/
def rg_get_nth_move (rg : rg_s) (pos : Int) : Option Move :=
  let npos := rg_npos rg pos
  if rg_is_empty rg || decide (npos ≥ rg.cnt) then none
  else if rg.widx > rg.ridx then
    let idx := (rg.ridx + npos) % U64
    if idx ≠ rg.ridx then some ⟨idx, idx + 1, (rg.widx + (U64 - idx)) % U64⟩ else none
  else if rg.size = 0 then none
  else
    let idx := ((rg.ridx + npos) % U64) % rg.size
    if idx < rg.widx then
      if idx ≠ (rg.widx + (U64 - 1)) % U64 then
        some ⟨idx, idx + 1, (rg.widx + (U64 - idx) + (U64 - 1)) % U64⟩
      else none
    else
      if idx ≠ rg.ridx then some ⟨rg.ridx + 1, rg.ridx, (idx + (U64 - rg.ridx)) % U64⟩
      else none

/-- The number of slots moved by `rg_get_nth( rg, pos )`: the length of its
`memmove`, or 0 when it issues none. -/
def rg_get_nth_moved (rg : rg_s) (pos : Int) : Nat :=
  match rg_get_nth_move rg pos with
  | some mv => mv.n
  | none => 0

/-- One call of the public interface on a buffer. -/
inductive Call where
  | put (item : Item)
  | get
  | ram (item : Item) (junk : Nat → Item)
  | put_front (item : Item)
  | get_back
  | peek
  | peek_back
  | get_nth (pos : Int)
  | resize (size : Nat) (junk : Nat → Item)

/-- The buffer after one call; `none` when the call has undefined behaviour. -/
def call (rg : rg_s) : Call → Option rg_s
  | .put item => (rg_put rg item).map fun r => r.2
  | .get => (rg_get rg).map fun r => r.2
  | .ram item junk => (rg_ram rg item junk).map fun r => r.2
  | .put_front item => (rg_put_front rg item).map fun r => r.2
  | .get_back => (rg_get_back rg).map fun r => r.2
  | .peek => (rg_peek rg).map fun r => r.2
  | .peek_back => (rg_peek_back rg).map fun r => r.2
  | .get_nth pos => (rg_get_nth rg pos).map fun r => r.2
  | .resize size junk => (rg_resize rg size junk).map fun r => r.2

/-- A sequence of calls, each applied to the buffer left by the one before. -/
def steps : rg_s → List Call → Option rg_s
  | rg, [] => some rg
  | rg, c :: cs => (call rg c).bind fun rg1 => steps rg1 cs

/-- The size that a call hands to `rg_resize`, if any, has a struct size that
is representable in `size_t`. -/
def call_fits : Call → Prop
  | .resize size _ => struct_bytes size < U64
  | _ => True

instance (c : Call) : Decidable (call_fits c) := by
  cases c <;> unfold call_fits <;> infer_instance

/-- The structural invariant of the fields: `size >= RG_MIN_SIZE`,
`0 <= cnt <= size`, both cursors below `size`, and the write cursor `cnt` slots
after the read cursor modulo `size`. -/
def inv (rg : rg_s) : Prop :=
  RG_MIN_SIZE ≤ rg.size ∧ rg.cnt ≤ rg.size ∧ rg.ridx < rg.size ∧ rg.widx < rg.size ∧
    rg.widx = (rg.ridx + rg.cnt) % rg.size

instance (rg : rg_s) : Decidable (inv rg) := by unfold inv; infer_instance

/-- A sample sequence of calls covering every function of the interface. -/
def sample_calls : List Call :=
  [Call.put 1, Call.put 2, Call.ram 3 (fun _ => NULL), Call.get, Call.put_front 4,
   Call.peek, Call.peek_back, Call.get_nth (-1), Call.resize 3 (fun _ => NULL),
   Call.get_back, Call.get_nth 0, Call.get, Call.resize 5 (fun _ => NULL), Call.put 6]

/-- The slot of the item lookup `rg_nth( rg, idx )` in `rg_get_nth( rg, pos )`;
`none` when the call returns before the lookup.  Same index arithmetic as
`rg_get_nth`. -/
def rg_get_nth_idx (rg : rg_s) (pos : Int) : Option Nat :=
  let npos := rg_npos rg pos
  if rg_is_empty rg || decide (npos ≥ rg.cnt) then none
  else if rg.widx > rg.ridx then some ((rg.ridx + npos) % U64)
  else if rg.size = 0 then none
  else some (((rg.ridx + npos) % U64) % rg.size)

/-- The subtractions between unsigned indices that `rg_get_nth( rg, pos )`
evaluates, each as the pair (minuend, subtrahend): `widx - idx` in the contiguous
branch; `widx - 1` (the guard), `widx - idx` and `( widx - idx ) - 1` in the
wrapped-tail branch; `idx - ridx` in the wrapped-head branch.  A subtraction
underflows when its subtrahend exceeds its minuend. -/
def rg_get_nth_subs (rg : rg_s) (pos : Int) : List (Nat × Nat) :=
  let npos := rg_npos rg pos
  if rg_is_empty rg || decide (npos ≥ rg.cnt) then []
  else if rg.widx > rg.ridx then
    let idx := (rg.ridx + npos) % U64
    if idx ≠ rg.ridx then [(rg.widx, idx)] else []
  else if rg.size = 0 then []
  else
    let idx := ((rg.ridx + npos) % U64) % rg.size
    if idx < rg.widx then
      if idx ≠ (rg.widx + (U64 - 1)) % U64 then
        [(rg.widx, 1), (rg.widx, idx), ((rg.widx + (U64 - idx)) % U64, 1)]
      else [(rg.widx, 1)]
    else
      if idx ≠ rg.ridx then [(idx, rg.ridx)] else []

/-- A full buffer of capacity `n` with the read cursor at slot 0 and the item `7`
in every slot. -/
def full_buffer (n : Nat) : rg_s :=
  { ridx := 0, widx := 0, cnt := n, size := n, data := List.replicate n 7 }

/-! ## Basic facts about the storage model -/

theorem rg_slots_struct (size : Nat) (h : struct_bytes size < U64) :
    rg_slots (rg_struct_size size) = size := by
  simp only [struct_bytes, sizeof_rg_s, rg_unit_size, U64] at h
  simp only [rg_slots, rg_struct_size, sizeof_rg_s, rg_unit_size, U64]
  omega

theorem rg_slots_wrapped (n : Nat) (h1 : 2 * n < U64) (h2 : U64 ≤ struct_bytes (2 * n)) :
    rg_slots (rg_struct_size (2 * n)) ≤ n := by
  simp only [struct_bytes, sizeof_rg_s, rg_unit_size, U64] at h1 h2
  simp only [rg_slots, rg_struct_size, sizeof_rg_s, rg_unit_size, U64]
  omega

theorem struct_bytes_bound (size : Nat) (h : struct_bytes size < U64) :
    size < 2305843009213693952 := by
  simp only [struct_bytes, sizeof_rg_s, rg_unit_size, U64] at h
  omega

theorem add_mod_wrap (r i s : Nat) (h : r + i < 2 * s) :
    (r + i) % s = if r + i < s then r + i else r + i - s := by
  split
  · exact Nat.mod_eq_of_lt (by assumption)
  · rw [Nat.mod_eq_sub_mod (by omega)]
    exact Nat.mod_eq_of_lt (by omega)

theorem getD_set_slot (data : List Item) (i j : Nat) (v : Item) :
    (data.set i v).getD j NULL = if i = j ∧ i < data.length then v else data.getD j NULL := by
  simp only [List.getD_eq_getElem?_getD, List.getElem?_set]
  by_cases hij : i = j
  · subst hij
    by_cases hl : i < data.length
    · simp [hl]
    · simp [hl, List.getElem?_eq_none (Nat.le_of_not_lt hl)]
  · simp [hij]

theorem memmove_some (data : List Item) (dst src n : Nat)
    (h1 : src + n ≤ data.length) (h2 : dst + n ≤ data.length) :
    memmove data dst src n = some ((List.range data.length).map fun i =>
      if dst ≤ i ∧ i < dst + n then data.getD (src + (i - dst)) NULL else data.getD i NULL) := by
  simp [memmove, h1, h2]

theorem getD_map_range (f : Nat → Item) (len j : Nat) :
    ((List.range len).map f).getD j NULL = if j < len then f j else NULL := by
  simp only [List.getD_eq_getElem?_getD, List.getElem?_map]
  by_cases h : j < len
  · simp [List.getElem?_range h, h]
  · simp [h, List.getElem?_eq_none (l := List.range len) (by simpa using h)]

theorem contents_length (rg : rg_s) : (contents rg).length = rg.cnt := by
  simp [contents]

theorem contents_getElem? (rg : rg_s) (i : Nat) :
    (contents rg)[i]? =
      if i < rg.cnt then some (rg.data.getD ((rg.ridx + i) % rg.size) NULL) else none := by
  simp only [contents, List.getElem?_map]
  by_cases h : i < rg.cnt
  · simp [List.getElem?_range h, h]
  · simp [h, List.getElem?_eq_none (l := List.range rg.cnt) (by simpa using h)]


/-! ## The queue operations on a well-formed buffer -/

theorem rg_next_index_eq (size idx : Nat) (h : idx < size) (hs : size < U64) :
    rg_next_index size idx = some ((idx + 1) % size) := by
  have h0 : size ≠ 0 := by omega
  have h1 : (idx + 1) % U64 = idx + 1 := Nat.mod_eq_of_lt (by omega)
  simp [rg_next_index, h0, h1]

theorem rg_put_eq (rg : rg_s) (item : Item) (h : wf rg) (hnf : rg.cnt < rg.size) :
    rg_put rg item = some (rg_true,
      { rg with data := rg.data.set rg.widx item, widx := (rg.widx + 1) % rg.size,
                cnt := rg.cnt + 1 }) := by
  obtain ⟨hlen, hsz, hr, hw, hc, hwi⟩ := h
  have h1 : (rg.cnt + 1) % U64 = rg.cnt + 1 := Nat.mod_eq_of_lt (by omega)
  have h2 : ¬ rg.size ≤ rg.cnt := by omega
  simp [rg_put, rg_is_full, rg_nth_set, rg_next_index_eq _ _ hw hsz, hlen, hw, h1, h2]

theorem rg_put_wf (rg : rg_s) (item : Item) (h : wf rg) (hnf : rg.cnt < rg.size) :
    wf { rg with data := rg.data.set rg.widx item, widx := (rg.widx + 1) % rg.size,
                 cnt := rg.cnt + 1 } := by
  obtain ⟨hlen, hsz, hr, hw, hc, hwi⟩ := h
  refine ⟨by simpa using hlen, hsz, hr, Nat.mod_lt _ (by omega), hnf, ?_⟩
  show (rg.widx + 1) % rg.size = (rg.ridx + (rg.cnt + 1)) % rg.size
  rw [add_mod_wrap _ _ _ (by omega)] at hwi
  rw [add_mod_wrap _ _ _ (by omega), add_mod_wrap _ _ _ (by omega)]
  split_ifs at hwi ⊢ <;> omega

theorem rg_put_contents (rg : rg_s) (item : Item) (h : wf rg) (hnf : rg.cnt < rg.size) :
    contents { rg with data := rg.data.set rg.widx item, widx := (rg.widx + 1) % rg.size,
                       cnt := rg.cnt + 1 } = contents rg ++ [item] := by
  obtain ⟨hlen, hsz, hr, hw, hc, hwi⟩ := h
  apply List.ext_getElem?
  intro i
  rw [contents_getElem?]
  show (if i < rg.cnt + 1 then
      some ((rg.data.set rg.widx item).getD ((rg.ridx + i) % rg.size) NULL) else none) = _
  rw [getD_set_slot]
  rcases Nat.lt_trichotomy i rg.cnt with hi | hi | hi
  · rw [List.getElem?_append_left (by simpa [contents_length] using hi), contents_getElem?]
    have hne : ¬ (rg.widx = (rg.ridx + i) % rg.size ∧ rg.widx < rg.data.length) := by
      rw [add_mod_wrap _ _ _ (by omega)] at hwi
      rw [add_mod_wrap _ _ _ (by omega)]
      split_ifs at hwi ⊢ <;> omega
    simp [hne, hi, Nat.lt_succ_of_lt hi]
  · subst hi
    rw [List.getElem?_append_right (by simp [contents_length])]
    simp [contents_length, ← hwi, hlen, hw]
  · rw [List.getElem?_append_right (by simp [contents_length]; omega)]
    have : ¬ i < rg.cnt + 1 := by omega
    have h2 : i - rg.cnt ≠ 0 := by omega
    simp [contents_length, this]
    omega

theorem rg_get_eq (rg : rg_s) (h : wf rg) (hne : 0 < rg.cnt) :
    rg_get rg = some (rg.data.getD rg.ridx NULL,
      { rg with ridx := (rg.ridx + 1) % rg.size, cnt := rg.cnt - 1 }) := by
  obtain ⟨hlen, hsz, hr, hw, hc, hwi⟩ := h
  have h1 : (rg.cnt + (U64 - 1)) % U64 = rg.cnt - 1 := by
    simp only [U64] at *
    omega
  have h2 : rg.cnt ≠ 0 := by omega
  have h3 : rg.ridx < rg.data.length := by omega
  simp [rg_get, rg_is_empty, rg_nth, rg_next_index_eq _ _ hr hsz, h1, h2,
    List.getD_eq_getElem?_getD, List.getElem?_eq_getElem h3]

theorem rg_get_wf (rg : rg_s) (h : wf rg) (hne : 0 < rg.cnt) :
    wf { rg with ridx := (rg.ridx + 1) % rg.size, cnt := rg.cnt - 1 } := by
  obtain ⟨hlen, hsz, hr, hw, hc, hwi⟩ := h
  refine ⟨hlen, hsz, Nat.mod_lt _ (by omega), hw, ?_, ?_⟩
  · show rg.cnt - 1 ≤ rg.size
    omega
  · show rg.widx = ((rg.ridx + 1) % rg.size + (rg.cnt - 1)) % rg.size
    rw [add_mod_wrap _ _ _ (by omega)] at hwi
    rw [add_mod_wrap rg.ridx 1 _ (by omega)]
    split_ifs with hlt
    · rw [add_mod_wrap _ _ _ (by omega)]
      split_ifs at hwi ⊢ <;> omega
    · rw [add_mod_wrap _ _ _ (by omega)]
      split_ifs at hwi ⊢ <;> omega

theorem rg_get_contents (rg : rg_s) (h : wf rg) (hne : 0 < rg.cnt) :
    contents rg = rg.data.getD rg.ridx NULL ::
      contents { rg with ridx := (rg.ridx + 1) % rg.size, cnt := rg.cnt - 1 } := by
  obtain ⟨hlen, hsz, hr, hw, hc, hwi⟩ := h
  apply List.ext_getElem?
  intro i
  rw [contents_getElem?]
  cases i with
  | zero => simp [hne, Nat.mod_eq_of_lt hr]
  | succ k =>
    rw [List.getElem?_cons_succ, contents_getElem?]
    show _ = if k < rg.cnt - 1 then
      some (rg.data.getD (((rg.ridx + 1) % rg.size + k) % rg.size) NULL) else none
    by_cases hk : k + 1 < rg.cnt
    · have hk2 : k < rg.cnt - 1 := by omega
      have : ((rg.ridx + 1) % rg.size + k) % rg.size = (rg.ridx + (k + 1)) % rg.size := by
        rw [add_mod_wrap rg.ridx 1 _ (by omega)]
        split_ifs with hlt
        · rw [add_mod_wrap _ _ _ (by omega), add_mod_wrap _ _ _ (by omega)]
          split_ifs <;> omega
        · rw [add_mod_wrap _ _ _ (by omega), add_mod_wrap _ _ _ (by omega)]
          split_ifs <;> omega
      simp [hk, hk2, this]
    · have hk2 : ¬ k < rg.cnt - 1 := by omega
      simp [hk, hk2]

/-! ## The FIFO law -/

theorem rg_new_wf (size : Nat) (junk : Nat → Item) (h0 : 0 < size)
    (hs : struct_bytes size < U64) : wf (rg_new size junk) := by
  have hs2 : size < U64 := by
    have := struct_bytes_bound size hs
    simp only [U64]
    omega
  refine ⟨by simp [rg_new, rg_malloc, rg_slots_struct size hs], hs2, h0, h0,
    Nat.zero_le _, ?_⟩
  simp [rg_new]

theorem run_wf (ops : List Op) : ∀ rg : rg_s, wf rg → run rg ops ≠ Run.illegal →
    ∃ rg1 out, run rg ops = Run.done rg1 out ∧ wf rg1 ∧ rg1.size = rg.size ∧
      contents rg ++ put_items ops = out ++ contents rg1 ∧ out.length = get_count ops := by
  induction ops with
  | nil =>
    intro rg h _
    exact ⟨rg, [], rfl, h, rfl, by simp [put_items], rfl⟩
  | cons op ops ih =>
    intro rg h hl
    cases op with
    | put item =>
      by_cases hf : rg_is_full rg = true
      · simp [run, hf] at hl
      · have hnf : rg.cnt < rg.size := by simpa [rg_is_full] using hf
        have hrun : run rg (Op.put item :: ops) =
            run { rg with data := rg.data.set rg.widx item, widx := (rg.widx + 1) % rg.size,
                          cnt := rg.cnt + 1 } ops := by
          simp [run, hf, rg_put_eq rg item h hnf]
        rw [hrun] at hl ⊢
        obtain ⟨rg1, out, h1, h2, h3, h4, h5⟩ := ih _ (rg_put_wf rg item h hnf) hl
        refine ⟨rg1, out, h1, h2, h3, ?_, h5⟩
        rw [rg_put_contents rg item h hnf] at h4
        simpa [put_items] using h4
    | get =>
      by_cases he : rg_is_empty rg = true
      · simp [run, he] at hl
      · have hne : 0 < rg.cnt := by
          have : rg.cnt ≠ 0 := by simpa [rg_is_empty] using he
          omega
        have hrun : run rg (Op.get :: ops) = Run.push (rg.data.getD rg.ridx NULL)
            (run { rg with ridx := (rg.ridx + 1) % rg.size, cnt := rg.cnt - 1 } ops) := by
          simp [run, he, rg_get_eq rg h hne]
        rw [hrun] at hl ⊢
        have hl2 : run { rg with ridx := (rg.ridx + 1) % rg.size, cnt := rg.cnt - 1 } ops ≠
            Run.illegal := by
          intro hc
          rw [hc] at hl
          exact hl rfl
        obtain ⟨rg1, out, h1, h2, h3, h4, h5⟩ := ih _ (rg_get_wf rg h hne) hl2
        refine ⟨rg1, rg.data.getD rg.ridx NULL :: out, by rw [h1]; rfl, h2, h3, ?_, ?_⟩
        · rw [rg_get_contents rg h hne]
          simpa [put_items] using h4
        · simp [get_count, h5]

/-- C1, counterexample: `rg_new( 2^61 )` asks `rg_malloc` for
`rg_struct_size( 2^61 )` bytes, which wraps to the 32 bytes of the header, so the
buffer has no slot; the first `rg_put`, made on a buffer that is not full, writes
outside the storage. -/
theorem fifo_law_fails_on_wrapped_size :
    2305843009213693952 < U64 ∧
    (rg_new 2305843009213693952 (fun _ => NULL)).data = [] ∧
    run (rg_new 2305843009213693952 (fun _ => NULL)) [Op.put 1] ≠ Run.illegal ∧
    run (rg_new 2305843009213693952 (fun _ => NULL)) [Op.put 1] = Run.undefined := by
  decide

/-- C1 (FIFO law, amended): from `rg_new( size )` with a struct size
`sizeof( rg_s ) + size * sizeof( void* )` that is representable in `size_t`, every
sequence of `rg_put` / `rg_get` calls with no `rg_put` on a full buffer and no
`rg_get` on an empty one runs to the end without undefined behaviour; afterwards
`rg_count` is the number of puts minus the number of gets, and the items returned
by the gets are, in order, the items given to the first puts (the k-th `rg_get`
returns the item of the k-th `rg_put`). -/
theorem fifo_law (size : Nat) (junk : Nat → Item) (ops : List Op)
    (hs : struct_bytes size < U64)
    (hl : run (rg_new size junk) ops ≠ Run.illegal) :
    ∃ rg out, run (rg_new size junk) ops = Run.done rg out ∧
      get_count ops ≤ (put_items ops).length ∧
      rg_count rg = (put_items ops).length - get_count ops ∧
      out = (put_items ops).take (get_count ops) := by
  rcases Nat.eq_zero_or_pos size with h0 | h0
  · subst h0
    cases ops with
    | nil => exact ⟨rg_new 0 junk, [], rfl, Nat.le_refl _, rfl, rfl⟩
    | cons op ops =>
      exfalso
      apply hl
      cases op <;> simp [run, rg_new, rg_is_full, rg_is_empty]
  · obtain ⟨rg1, out, h1, _, _, h4, h5⟩ := run_wf ops _ (rg_new_wf size junk h0 hs) hl
    have hc : contents (rg_new size junk) = [] := by simp [contents, rg_new]
    rw [hc, List.nil_append] at h4
    have hlen : (put_items ops).length = out.length + rg1.cnt := by
      rw [h4, List.length_append, contents_length]
    refine ⟨rg1, out, h1, by omega, ?_, ?_⟩
    · show rg1.cnt = _
      omega
    · rw [h4, ← h5, List.take_left]

/-- Witness for `fifo_law`: capacity 4, put 10, 20, 30, get, put 40, 50, get. -/
theorem fifo_law_witness :
    struct_bytes 4 < U64 ∧ run (rg_new 4 (fun _ => NULL)) fifo_ops ≠ Run.illegal ∧
    ∃ rg out, run (rg_new 4 (fun _ => NULL)) fifo_ops = Run.done rg out ∧
      get_count fifo_ops ≤ (put_items fifo_ops).length ∧
      rg_count rg = (put_items fifo_ops).length - get_count fifo_ops ∧
      out = (put_items fifo_ops).take (get_count fifo_ops) :=
  ⟨by decide, by decide, fifo_law 4 (fun _ => NULL) fifo_ops (by decide) (by decide)⟩

/-! ## Failing calls leave the buffer alone -/

theorem rg_prev_index_lt (size idx : Nat) (h0 : 0 < size) :
    ∃ k, rg_prev_index size idx = some k ∧ k < size := by
  have h : size ≠ 0 := by omega
  refine ⟨((idx + (U64 - 1) + size) % U64) % size, ?_, Nat.mod_lt _ h0⟩
  simp [rg_prev_index, h]

/-- C7 (pushes fail closed): on a well-formed full buffer (`cnt = size`) both
`rg_put` and `rg_put_front` return 0 and return the buffer with every field
unchanged; on a well-formed buffer that is not full both return 1. -/
theorem push_fails_closed (rg : rg_s) (item : Item) (h : wf rg) :
    (rg.cnt = rg.size →
      rg_put rg item = some (rg_false, rg) ∧ rg_put_front rg item = some (rg_false, rg)) ∧
    (rg_is_full rg = false →
      (∃ rg1, rg_put rg item = some (rg_true, rg1)) ∧
      (∃ rg2, rg_put_front rg item = some (rg_true, rg2))) := by
  obtain ⟨hlen, hsz, hr, hw, hc, hwi⟩ := h
  constructor
  · intro hfull
    simp [rg_put, rg_put_front, rg_is_full, hfull]
  · intro hnf
    have hlt : rg.cnt < rg.size := by simpa [rg_is_full] using hnf
    refine ⟨⟨_, rg_put_eq rg item ⟨hlen, hsz, hr, hw, hc, hwi⟩ hlt⟩, ?_⟩
    obtain ⟨k, hk, hklt⟩ := rg_prev_index_lt rg.size rg.ridx (by omega)
    have hk2 : k < rg.data.length := by omega
    refine ⟨{ rg with ridx := k, data := rg.data.set k item, cnt := (rg.cnt + 1) % U64 }, ?_⟩
    simp [rg_put_front, hnf, hk, rg_nth_set, hk2]

/-- Witness for `push_fails_closed`: a full wrapped buffer of capacity 4, and a
buffer of capacity 4 holding one item. -/
theorem push_fails_closed_witness :
    (wf ⟨2, 2, 4, 4, [5, 6, 3, 4]⟩ ∧
      rg_put ⟨2, 2, 4, 4, [5, 6, 3, 4]⟩ 9 = some (rg_false, ⟨2, 2, 4, 4, [5, 6, 3, 4]⟩) ∧
      rg_put_front ⟨2, 2, 4, 4, [5, 6, 3, 4]⟩ 9 =
        some (rg_false, ⟨2, 2, 4, 4, [5, 6, 3, 4]⟩)) ∧
    (wf ⟨3, 0, 1, 4, [0, 0, 0, 7]⟩ ∧ rg_is_full ⟨3, 0, 1, 4, [0, 0, 0, 7]⟩ = false ∧
      (∃ rg1, rg_put ⟨3, 0, 1, 4, [0, 0, 0, 7]⟩ 9 = some (rg_true, rg1)) ∧
      (∃ rg2, rg_put_front ⟨3, 0, 1, 4, [0, 0, 0, 7]⟩ 9 = some (rg_true, rg2))) :=
  ⟨⟨by decide, (push_fails_closed ⟨2, 2, 4, 4, [5, 6, 3, 4]⟩ 9 (by decide)).1 rfl⟩,
    ⟨by decide, by decide,
      (push_fails_closed ⟨3, 0, 1, 4, [0, 0, 0, 7]⟩ 9 (by decide)).2 (by decide)⟩⟩

/-- C8 (empty buffer): on every empty buffer (`cnt = 0`, any capacity, any cursor
positions, any storage) `rg_get`, `rg_get_back`, `rg_peek`, `rg_peek_back` and
`rg_get_nth( rg, 0 )` return `NULL` and return the buffer unchanged. -/
theorem empty_returns_null (rg : rg_s) (h : rg.cnt = 0) :
    rg_get rg = some (NULL, rg) ∧ rg_get_back rg = some (NULL, rg) ∧
    rg_peek rg = some (NULL, rg) ∧ rg_peek_back rg = some (NULL, rg) ∧
    rg_get_nth rg 0 = some (NULL, rg) := by
  simp [rg_get, rg_get_back, rg_peek, rg_peek_back, rg_get_nth, rg_is_empty, h]

/-- Witness for `empty_returns_null`: the empty buffer of capacity 2 with both
cursors at slot 1. -/
theorem empty_returns_null_witness :
    (⟨1, 1, 0, 2, [3, 4]⟩ : rg_s).cnt = 0 ∧
    rg_get ⟨1, 1, 0, 2, [3, 4]⟩ = some (NULL, ⟨1, 1, 0, 2, [3, 4]⟩) ∧
    rg_get_back ⟨1, 1, 0, 2, [3, 4]⟩ = some (NULL, ⟨1, 1, 0, 2, [3, 4]⟩) ∧
    rg_peek ⟨1, 1, 0, 2, [3, 4]⟩ = some (NULL, ⟨1, 1, 0, 2, [3, 4]⟩) ∧
    rg_peek_back ⟨1, 1, 0, 2, [3, 4]⟩ = some (NULL, ⟨1, 1, 0, 2, [3, 4]⟩) ∧
    rg_get_nth ⟨1, 1, 0, 2, [3, 4]⟩ 0 = some (NULL, ⟨1, 1, 0, 2, [3, 4]⟩) :=
  ⟨rfl, empty_returns_null ⟨1, 1, 0, 2, [3, 4]⟩ rfl⟩

/-- C6 (`rg_ram` signals a resize): on a well-formed buffer that is not full,
`rg_ram` returns 0, leaves the capacity unchanged and ends in exactly the buffer
that `rg_put` ends in; and whenever `rg_ram` returns 1 the buffer was full on
entry. -/
theorem ram_signals_resize (rg : rg_s) (item : Item) (junk : Nat → Item) (h : wf rg) :
    (rg_is_full rg = false →
      ∃ rg1, rg_ram rg item junk = some (rg_false, rg1) ∧
        rg_put rg item = some (rg_true, rg1) ∧ rg_size rg1 = rg_size rg) ∧
    (∀ rg1, rg_ram rg item junk = some (rg_true, rg1) → rg_is_full rg = true) := by
  constructor
  · intro hnf
    have hlt : rg.cnt < rg.size := by simpa [rg_is_full] using hnf
    obtain ⟨hlen, hsz, hr, hw, hc, hwi⟩ := h
    have h1 : (rg.cnt + 1) % U64 = rg.cnt + 1 := Nat.mod_eq_of_lt (by omega)
    refine ⟨_, ?_, rg_put_eq rg item ⟨hlen, hsz, hr, hw, hc, hwi⟩ hlt, rfl⟩
    simp [rg_ram, hnf, rg_nth_set, rg_next_index_eq _ _ hw hsz, hlen, hw, h1]
  · intro rg1 hram
    by_cases hf : rg_is_full rg = true
    · exact hf
    · exfalso
      have hnf : rg_is_full rg = false := by simpa using hf
      simp only [rg_ram, hnf] at hram
      cases hd : rg_nth_set rg.data rg.widx item with
      | none => simp [hd] at hram
      | some d =>
        cases hn : rg_next_index rg.size rg.widx with
        | none => simp [hd, hn] at hram
        | some w => simp [hd, hn, rg_true, rg_false] at hram

/-- Witness for `ram_signals_resize`: a buffer of capacity 4 holding one item. -/
theorem ram_signals_resize_witness :
    wf ⟨3, 0, 1, 4, [0, 0, 0, 7]⟩ ∧ rg_is_full ⟨3, 0, 1, 4, [0, 0, 0, 7]⟩ = false ∧
    ∃ rg1, rg_ram ⟨3, 0, 1, 4, [0, 0, 0, 7]⟩ 9 (fun _ => NULL) = some (rg_false, rg1) ∧
      rg_put ⟨3, 0, 1, 4, [0, 0, 0, 7]⟩ 9 = some (rg_true, rg1) ∧
      rg_size rg1 = rg_size ⟨3, 0, 1, 4, [0, 0, 0, 7]⟩ :=
  ⟨by decide, by decide,
    (ram_signals_resize ⟨3, 0, 1, 4, [0, 0, 0, 7]⟩ 9 (fun _ => NULL) (by decide)).1 (by decide)⟩

/-! ## Positional removal: rejected offsets and offset 0 -/

/-- C9 (`rg_get_nth` rejects out-of-range offsets): for a well-formed buffer and a
signed 64-bit `pos` with `pos ≥ cnt` or `pos < -cnt`, `rg_get_nth` returns `NULL`
and returns the buffer with every field unchanged. -/
theorem get_nth_rejects (rg : rg_s) (pos : Int) (h : wf rg)
    (hlo : -9223372036854775808 ≤ pos) (hhi : pos < 9223372036854775808)
    (hout : (rg.cnt : Int) ≤ pos ∨ pos < -(rg.cnt : Int)) :
    rg_get_nth rg pos = some (NULL, rg) := by
  obtain ⟨hlen, hsz, hr, hw, hc, hwi⟩ := h
  have hn : rg.cnt ≤ rg_npos rg pos := by
    simp only [rg_npos, U64] at *
    split_ifs with hneg
    · have : (rg.cnt : Int) + pos < 0 := by omega
      omega
    · omega
  simp [rg_get_nth, hn]

/-- Witness for `get_nth_rejects`: offset `-4` on a buffer holding three items. -/
theorem get_nth_rejects_witness :
    wf ⟨2, 1, 3, 4, [5, 0, 3, 4]⟩ ∧
    rg_get_nth ⟨2, 1, 3, 4, [5, 0, 3, 4]⟩ (-4) = some (NULL, ⟨2, 1, 3, 4, [5, 0, 3, 4]⟩) :=
  ⟨by decide,
    get_nth_rejects ⟨2, 1, 3, 4, [5, 0, 3, 4]⟩ (-4) (by decide) (by decide) (by decide)
      (by decide)⟩

/-- C10 (`rg_get_nth( rg, 0 )` is `rg_get`): on a non-empty well-formed buffer the
two calls return the same item and the same buffer (`ridx`, `widx`, `cnt`, `size`
and storage), and they do return. -/
theorem get_nth_zero_eq_get (rg : rg_s) (h : wf rg) (hne : 0 < rg.cnt) :
    rg_get_nth rg 0 = rg_get rg ∧ ∃ item rg1, rg_get rg = some (item, rg1) := by
  refine ⟨?_, _, _, rg_get_eq rg h hne⟩
  rw [rg_get_eq rg h hne]
  obtain ⟨hlen, hsz, hr, hw, hc, hwi⟩ := h
  have h1 : (rg.cnt + (U64 - 1)) % U64 = rg.cnt - 1 := by
    simp only [U64] at *
    omega
  have h2 : rg.cnt ≠ 0 := by omega
  have h3 : rg.ridx < rg.data.length := by omega
  have h4 : rg.ridx % U64 = rg.ridx := Nat.mod_eq_of_lt (by omega)
  have h5 : rg.size ≠ 0 := by omega
  have hnp : rg_npos rg 0 = 0 := by simp [rg_npos]
  by_cases hwr : rg.ridx < rg.widx
  · have h6 : (rg.ridx + 1) % U64 = rg.ridx + 1 := Nat.mod_eq_of_lt (by omega)
    have h7 : (rg.ridx + 1) % rg.size = rg.ridx + 1 := Nat.mod_eq_of_lt (by omega)
    simp [rg_get_nth, hnp, rg_is_empty, h1, h2, hwr, h4, rg_nth, h6, h7, hne,
      List.getD_eq_getElem?_getD, List.getElem?_eq_getElem h3]
  · have h8 : ¬ rg.ridx < rg.widx := hwr
    simp [rg_get_nth, hnp, rg_is_empty, h1, h2, hwr, h4, h5, rg_nth, hne,
      Nat.mod_eq_of_lt hr, rg_next_index_eq _ _ hr hsz,
      List.getD_eq_getElem?_getD, List.getElem?_eq_getElem h3]

/-- Witness for `get_nth_zero_eq_get`: a wrapped buffer holding three items. -/
theorem get_nth_zero_eq_get_witness :
    wf ⟨2, 1, 3, 4, [5, 0, 3, 4]⟩ ∧
    rg_get_nth ⟨2, 1, 3, 4, [5, 0, 3, 4]⟩ 0 = rg_get ⟨2, 1, 3, 4, [5, 0, 3, 4]⟩ ∧
    ∃ item rg1, rg_get ⟨2, 1, 3, 4, [5, 0, 3, 4]⟩ = some (item, rg1) :=
  ⟨by decide, get_nth_zero_eq_get ⟨2, 1, 3, 4, [5, 0, 3, 4]⟩ (by decide) (by decide)⟩

/-! ## Positional removal: the addressed element is removed -/

theorem memmove_spec (data : List Item) (dst src n : Nat)
    (h1 : src + n ≤ data.length) (h2 : dst + n ≤ data.length) :
    ∃ d, memmove data dst src n = some d ∧ d.length = data.length ∧
      ∀ j, d.getD j NULL =
        if dst ≤ j ∧ j < dst + n then data.getD (src + (j - dst)) NULL else data.getD j NULL := by
  refine ⟨_, memmove_some data dst src n h1 h2, by simp, ?_⟩
  intro j
  rw [getD_map_range]
  by_cases hj : j < data.length
  · simp [hj]
  · have h3 : ¬ (dst ≤ j ∧ j < dst + n) := by omega
    have h4 : data.getD j NULL = NULL := by
      simp [List.getD_eq_getElem?_getD, List.getElem?_eq_none (Nat.le_of_not_lt hj)]
    rw [if_neg hj, if_neg h3, h4]

theorem contents_eq_eraseIdx (rg rg1 : rg_s) (n : Nat) (hcnt : rg1.cnt + 1 = rg.cnt)
    (hn : n < rg.cnt)
    (hpt : ∀ i, i < rg1.cnt → rg1.data.getD ((rg1.ridx + i) % rg1.size) NULL =
      rg.data.getD ((rg.ridx + (if i < n then i else i + 1)) % rg.size) NULL) :
    contents rg1 = (contents rg).eraseIdx n := by
  apply List.ext_getElem?
  intro i
  rw [List.getElem?_eraseIdx, contents_getElem?]
  by_cases hi : i < rg1.cnt
  · rw [if_pos hi, hpt i hi]
    by_cases hin : i < n
    · have : i < rg.cnt := by omega
      simp [hin, contents_getElem?, this]
    · have : i + 1 < rg.cnt := by omega
      simp [hin, contents_getElem?, this]
  · rw [if_neg hi]
    by_cases hin : i < n
    · omega
    · have : ¬ i + 1 < rg.cnt := by omega
      simp [hin, contents_getElem?, this]

theorem contents_getD (rg : rg_s) (n : Nat) (hn : n < rg.cnt) :
    (contents rg)[n]? = some (rg.data.getD ((rg.ridx + n) % rg.size) NULL) := by
  simp [contents_getElem?, hn]

theorem rg_nth_eq (data : List Item) (i : Nat) (h : i < data.length) :
    rg_nth data i = some (data.getD i NULL) := by
  simp [rg_nth, List.getD_eq_getElem?_getD, List.getElem?_eq_getElem h]

theorem get_nth_contiguous (rg : rg_s) (pos : Int) (n : Nat) (h : wf rg)
    (hn : n < rg.cnt) (hnp : rg_npos rg pos = n) (hwr : rg.ridx < rg.widx) :
    ∃ rg1, rg_get_nth rg pos = some (rg.data.getD ((rg.ridx + n) % rg.size) NULL, rg1) ∧
      rg1.cnt = rg.cnt - 1 ∧ rg1.size = rg.size ∧ wf rg1 ∧
      contents rg1 = (contents rg).eraseIdx n := by
  obtain ⟨hlen, hsz, hr, hw, hc, hwi⟩ := h
  have hcw : rg.widx = rg.ridx + rg.cnt := by
    rw [add_mod_wrap _ _ _ (by omega)] at hwi
    split_ifs at hwi <;> omega
  have h1 : (rg.cnt + (U64 - 1)) % U64 = rg.cnt - 1 := by
    simp only [U64] at *
    omega
  have h2 : rg.cnt ≠ 0 := by omega
  have h3 : ¬ rg.cnt ≤ n := by omega
  have h4 : (rg.ridx + n) % U64 = rg.ridx + n := Nat.mod_eq_of_lt (by omega)
  have h5 : (rg.ridx + n) % rg.size = rg.ridx + n := Nat.mod_eq_of_lt (by omega)
  have h6 : rg.ridx + n < rg.data.length := by omega
  rw [h5]
  by_cases hn0 : n = 0
  · subst hn0
    have h4b : rg.ridx % U64 = rg.ridx := by simpa using h4
    have h6b : rg.ridx < rg.data.length := by omega
    have h7 : (rg.ridx + 1) % U64 = rg.ridx + 1 := Nat.mod_eq_of_lt (by omega)
    refine ⟨{ rg with cnt := rg.cnt - 1, ridx := rg.ridx + 1 }, ?_, rfl, rfl, ?_, ?_⟩
    · simp [rg_get_nth, hnp, rg_is_empty, h1, h2, hwr, rg_nth_eq _ _ h6b, h7, h4b]
    · refine ⟨hlen, hsz, ?_, hw, ?_, ?_⟩
      · show rg.ridx + 1 < rg.size
        omega
      · show rg.cnt - 1 ≤ rg.size
        omega
      · show rg.widx = (rg.ridx + 1 + (rg.cnt - 1)) % rg.size
        rw [Nat.mod_eq_of_lt (by omega)]
        omega
    · apply contents_eq_eraseIdx _ _ 0 (by show rg.cnt - 1 + 1 = rg.cnt; omega) hn
      intro i hi
      show rg.data.getD ((rg.ridx + 1 + i) % rg.size) NULL = _
      have e : rg.ridx + 1 + i = rg.ridx + (if i < 0 then i else i + 1) := by
        split_ifs <;> omega
      rw [e]
  · have h8 : (rg.widx + (U64 - (rg.ridx + n))) % U64 = rg.widx - (rg.ridx + n) := by
      simp only [U64] at *
      omega
    have h9 : (rg.widx + (U64 - 1)) % U64 = rg.widx - 1 := by
      simp only [U64] at *
      omega
    obtain ⟨d, hd, hdl, hdj⟩ := memmove_spec rg.data (rg.ridx + n) (rg.ridx + n + 1)
      (rg.widx - (rg.ridx + n)) (by omega) (by omega)
    refine ⟨{ rg with cnt := rg.cnt - 1, data := d, widx := rg.widx - 1 }, ?_, rfl, rfl, ?_, ?_⟩
    · simp [rg_get_nth, hnp, rg_is_empty, h1, h2, hwr, rg_nth_eq _ _ h6, h3, h4, h8, h9, hn0, hd]
    · refine ⟨by rw [← hlen]; exact hdl, hsz, hr, ?_, ?_, ?_⟩
      · show rg.widx - 1 < rg.size
        omega
      · show rg.cnt - 1 ≤ rg.size
        omega
      · show rg.widx - 1 = (rg.ridx + (rg.cnt - 1)) % rg.size
        rw [Nat.mod_eq_of_lt (by omega)]
        omega
    · apply contents_eq_eraseIdx _ _ n (by show rg.cnt - 1 + 1 = rg.cnt; omega) hn
      intro i hi
      have hi2 : i < rg.cnt - 1 := hi
      show d.getD ((rg.ridx + i) % rg.size) NULL = _
      rw [hdj, Nat.mod_eq_of_lt (by omega), Nat.mod_eq_of_lt (by split_ifs <;> omega)]
      by_cases hin : i < n
      · have : ¬ (rg.ridx + n ≤ rg.ridx + i ∧ rg.ridx + i < rg.ridx + n + (rg.widx - (rg.ridx + n))) := by
          omega
        rw [if_neg this, if_pos hin]
      · have : rg.ridx + n ≤ rg.ridx + i ∧ rg.ridx + i < rg.ridx + n + (rg.widx - (rg.ridx + n)) := by
          omega
        rw [if_pos this, if_neg hin]
        have e : rg.ridx + n + 1 + (rg.ridx + i - (rg.ridx + n)) = rg.ridx + (i + 1) := by
          omega
        rw [e]

theorem getD_congr (data : List Item) (x y : Nat) (h : x = y) :
    data.getD x NULL = data.getD y NULL := by rw [h]

theorem fits_bound (rg : rg_s) (hf : fits rg) : rg.size < 2305843009213693952 :=
  struct_bytes_bound rg.size hf

theorem get_nth_wrapped_tail (rg : rg_s) (pos : Int) (n : Nat) (h : wf rg) (hf : fits rg)
    (hn : n < rg.cnt) (hnp : rg_npos rg pos = n) (hwr : rg.widx ≤ rg.ridx)
    (htail : rg.size ≤ rg.ridx + n) :
    ∃ rg1, rg_get_nth rg pos = some (rg.data.getD ((rg.ridx + n) % rg.size) NULL, rg1) ∧
      rg1.cnt = rg.cnt - 1 ∧ rg1.size = rg.size ∧ wf rg1 ∧
      contents rg1 = (contents rg).eraseIdx n := by
  have hb := fits_bound rg hf
  obtain ⟨hlen, hsz, hr, hw, hc, hwi⟩ := h
  have hcw : rg.widx + rg.size = rg.ridx + rg.cnt := by
    rw [add_mod_wrap _ _ _ (by omega)] at hwi
    split_ifs at hwi <;> omega
  have h1 : (rg.cnt + (U64 - 1)) % U64 = rg.cnt - 1 := by
    simp only [U64] at *
    omega
  have h2 : rg.cnt ≠ 0 := by omega
  have h3 : ¬ rg.cnt ≤ n := by omega
  have h4 : (rg.ridx + n) % U64 = rg.ridx + n := by
    apply Nat.mod_eq_of_lt
    simp only [U64]
    omega
  have h5 : (rg.ridx + n) % rg.size = rg.ridx + n - rg.size := by
    rw [add_mod_wrap _ _ _ (by omega), if_neg (by omega)]
  have h6 : rg.ridx + n - rg.size < rg.data.length := by omega
  have h7 : ¬ rg.ridx < rg.widx := by omega
  have h8 : rg.size ≠ 0 := by omega
  have h9 : (rg.widx + (U64 - 1)) % U64 = rg.widx - 1 := by
    simp only [U64] at *
    omega
  have h10 : (rg.widx + (U64 - (rg.ridx + n - rg.size)) + (U64 - 1)) % U64 =
      rg.widx - (rg.ridx + n - rg.size) - 1 := by
    simp only [U64] at *
    omega
  have h11 : rg_prev_index rg.size rg.widx = some (rg.widx - 1) := by
    have e1 : (rg.widx + (U64 - 1) + rg.size) % U64 = rg.widx - 1 + rg.size := by
      simp only [U64] at *
      omega
    have e2 : (rg.widx - 1 + rg.size) % rg.size = rg.widx - 1 := by
      rw [Nat.add_mod_right]
      exact Nat.mod_eq_of_lt (by omega)
    simp [rg_prev_index, h8, e1, e2]
  have h12 : rg.ridx + n - rg.size < rg.widx := by omega
  have hmv : ∃ d, (if rg.ridx + n - rg.size ≠ rg.widx - 1 then
        memmove rg.data (rg.ridx + n - rg.size) (rg.ridx + n - rg.size + 1)
          (rg.widx - (rg.ridx + n - rg.size) - 1)
      else some rg.data) = some d ∧ d.length = rg.data.length ∧
      ∀ j, d.getD j NULL =
        if rg.ridx + n - rg.size ≤ j ∧ j < rg.widx - 1 then rg.data.getD (j + 1) NULL
        else rg.data.getD j NULL := by
    by_cases hlast : rg.ridx + n - rg.size = rg.widx - 1
    · refine ⟨rg.data, by simp [hlast], rfl, ?_⟩
      intro j
      rw [if_neg (by omega)]
    · obtain ⟨d, hd, hdl, hdj⟩ := memmove_spec rg.data (rg.ridx + n - rg.size)
        (rg.ridx + n - rg.size + 1) (rg.widx - (rg.ridx + n - rg.size) - 1)
        (by omega) (by omega)
      refine ⟨d, by simp [hlast, hd], hdl, ?_⟩
      intro j
      rw [hdj]
      split_ifs <;> first | omega | rfl | (apply getD_congr; omega)
  obtain ⟨d, hd, hdl, hdj⟩ := hmv
  rw [h5]
  refine ⟨{ rg with cnt := rg.cnt - 1, data := d, widx := rg.widx - 1 }, ?_, rfl, rfl, ?_, ?_⟩
  · simp only [rg_get_nth, hnp, rg_is_empty, h1, h4, h5, h9, h10, h11, rg_nth_eq _ _ h6]
    simp [h2, h3, h7, h8, h12]
    split_ifs with hlast
    · simp [hlast] at hd
      simp [hd]
    · simp [hlast] at hd
      simp [hd]
  · refine ⟨by rw [← hlen]; exact hdl, hsz, hr, ?_, ?_, ?_⟩
    · show rg.widx - 1 < rg.size
      omega
    · show rg.cnt - 1 ≤ rg.size
      omega
    · show rg.widx - 1 = (rg.ridx + (rg.cnt - 1)) % rg.size
      rw [add_mod_wrap _ _ _ (by omega)]
      split_ifs <;> omega
  · apply contents_eq_eraseIdx _ _ n (by show rg.cnt - 1 + 1 = rg.cnt; omega) hn
    intro i hi
    have hi2 : i < rg.cnt - 1 := hi
    show d.getD ((rg.ridx + i) % rg.size) NULL = _
    rw [hdj, add_mod_wrap _ _ _ (by omega), add_mod_wrap _ _ _ (by split_ifs <;> omega)]
    split_ifs <;> first | omega | rfl | (apply getD_congr; omega)

theorem get_nth_wrapped_head (rg : rg_s) (pos : Int) (n : Nat) (h : wf rg)
    (hn : n < rg.cnt) (hnp : rg_npos rg pos = n) (hwr : rg.widx ≤ rg.ridx)
    (hhead : rg.ridx + n < rg.size) :
    ∃ rg1, rg_get_nth rg pos = some (rg.data.getD ((rg.ridx + n) % rg.size) NULL, rg1) ∧
      rg1.cnt = rg.cnt - 1 ∧ rg1.size = rg.size ∧ wf rg1 ∧
      contents rg1 = (contents rg).eraseIdx n := by
  obtain ⟨hlen, hsz, hr, hw, hc, hwi⟩ := h
  have hcw : rg.widx + rg.size = rg.ridx + rg.cnt := by
    rw [add_mod_wrap _ _ _ (by omega)] at hwi
    split_ifs at hwi <;> omega
  have h1 : (rg.cnt + (U64 - 1)) % U64 = rg.cnt - 1 := by
    simp only [U64] at *
    omega
  have h2 : rg.cnt ≠ 0 := by omega
  have h3 : ¬ rg.cnt ≤ n := by omega
  have h4 : (rg.ridx + n) % U64 = rg.ridx + n := Nat.mod_eq_of_lt (by omega)
  have h5 : (rg.ridx + n) % rg.size = rg.ridx + n := Nat.mod_eq_of_lt hhead
  have h6 : rg.ridx + n < rg.data.length := by omega
  have h7 : ¬ rg.ridx < rg.widx := by omega
  have h8 : rg.size ≠ 0 := by omega
  have h10 : (rg.ridx + n + (U64 - rg.ridx)) % U64 = n := by
    simp only [U64] at *
    omega
  have h12 : ¬ rg.ridx + n < rg.widx := by omega
  have hmv : ∃ d, (if rg.ridx + n ≠ rg.ridx then memmove rg.data (rg.ridx + 1) rg.ridx n
      else some rg.data) = some d ∧ d.length = rg.data.length ∧
      ∀ j, d.getD j NULL =
        if rg.ridx + 1 ≤ j ∧ j < rg.ridx + 1 + n then rg.data.getD (j - 1) NULL
        else rg.data.getD j NULL := by
    by_cases hfirst : n = 0
    · refine ⟨rg.data, by simp [hfirst], rfl, ?_⟩
      intro j
      rw [if_neg (by omega)]
    · obtain ⟨d, hd, hdl, hdj⟩ := memmove_spec rg.data (rg.ridx + 1) rg.ridx n
        (by omega) (by omega)
      refine ⟨d, by simp [hfirst, hd], hdl, ?_⟩
      intro j
      rw [hdj]
      split_ifs <;> first | omega | rfl | (apply getD_congr; omega)
  obtain ⟨d, hd, hdl, hdj⟩ := hmv
  rw [h5]
  refine ⟨{ rg with cnt := rg.cnt - 1, data := d, ridx := (rg.ridx + 1) % rg.size },
    ?_, rfl, rfl, ?_, ?_⟩
  · simp only [rg_get_nth, hnp, rg_is_empty, h1, h4, h5, h10, rg_next_index_eq _ _ hr hsz,
      rg_nth_eq _ _ h6]
    simp [h2, h3, h7, h8, h12]
    split_ifs with hfirst
    · simp [hfirst] at hd
      simp [hd]
    · simp [hfirst] at hd
      simp [hd]
  · refine ⟨by rw [← hlen]; exact hdl, hsz, Nat.mod_lt _ (by omega), hw, ?_, ?_⟩
    · show rg.cnt - 1 ≤ rg.size
      omega
    · show rg.widx = ((rg.ridx + 1) % rg.size + (rg.cnt - 1)) % rg.size
      rw [add_mod_wrap rg.ridx 1 _ (by omega)]
      split_ifs with hlt
      · rw [add_mod_wrap _ _ _ (by omega)]
        split_ifs <;> omega
      · rw [add_mod_wrap _ _ _ (by omega)]
        split_ifs <;> omega
  · apply contents_eq_eraseIdx _ _ n (by show rg.cnt - 1 + 1 = rg.cnt; omega) hn
    intro i hi
    have hi2 : i < rg.cnt - 1 := hi
    show d.getD (((rg.ridx + 1) % rg.size + i) % rg.size) NULL = _
    clear hd hnp h1 h4 h10 hsz hwi
    rw [hdj, add_mod_wrap rg.ridx 1 _ (by omega)]
    by_cases hlt : rg.ridx + 1 < rg.size
    · rw [if_pos hlt, add_mod_wrap _ _ _ (by omega),
        add_mod_wrap _ _ _ (by split_ifs <;> omega)]
      split_ifs <;> first | omega | rfl | (apply getD_congr; omega)
    · rw [if_neg hlt, add_mod_wrap _ _ _ (by omega),
        add_mod_wrap _ _ _ (by split_ifs <;> omega)]
      split_ifs <;> first | omega | rfl | (apply getD_congr; omega)

theorem rg_npos_eq (rg : rg_s) (pos : Int) (n : Nat) (hc : rg.cnt < U64) (hn : n < rg.cnt)
    (hp : (0 ≤ pos ∧ pos = (n : Int)) ∨ (pos < 0 ∧ (rg.cnt : Int) + pos = (n : Int))) :
    rg_npos rg pos = n := by
  simp only [rg_npos, U64] at *
  rcases hp with ⟨h0, h1⟩ | ⟨h0, h1⟩
  · rw [if_neg (by omega)]
    omega
  · rw [if_pos h0, h1]
    omega

/-- C2 (`rg_get_nth` removes exactly the addressed element): for a well-formed
buffer whose storage fits the address space, in every layout, and every `pos`
whose normalized offset `n` (`pos` if `pos ≥ 0`, `cnt + pos` if `pos < 0`) is below
`cnt`, `rg_get_nth` returns the `n`-th element of the front-to-back contents,
decrements `cnt` by one, keeps `size`, and leaves the contents with the `n`-th
element deleted and the others in their order; the buffer stays well-formed. -/
theorem get_nth_removes (rg : rg_s) (pos : Int) (n : Nat) (h : wf rg) (hf : fits rg)
    (hn : n < rg.cnt)
    (hp : (0 ≤ pos ∧ pos = (n : Int)) ∨ (pos < 0 ∧ (rg.cnt : Int) + pos = (n : Int))) :
    ∃ item rg1, rg_get_nth rg pos = some (item, rg1) ∧ (contents rg)[n]? = some item ∧
      rg1.cnt + 1 = rg.cnt ∧ rg1.size = rg.size ∧
      contents rg1 = (contents rg).eraseIdx n ∧ wf rg1 := by
  have hnp : rg_npos rg pos = n := rg_npos_eq rg pos n (by have := h.2.1; have := h.2.2.2.2.1; omega) hn hp
  have key : ∃ rg1, rg_get_nth rg pos =
        some (rg.data.getD ((rg.ridx + n) % rg.size) NULL, rg1) ∧
      rg1.cnt = rg.cnt - 1 ∧ rg1.size = rg.size ∧ wf rg1 ∧
      contents rg1 = (contents rg).eraseIdx n := by
    by_cases hwr : rg.ridx < rg.widx
    · exact get_nth_contiguous rg pos n h hn hnp hwr
    · by_cases htail : rg.size ≤ rg.ridx + n
      · exact get_nth_wrapped_tail rg pos n h hf hn hnp (by omega) htail
      · exact get_nth_wrapped_head rg pos n h hn hnp (by omega) (by omega)
  obtain ⟨rg1, e1, e2, e3, e4, e5⟩ := key
  exact ⟨_, rg1, e1, contents_getD rg n hn, by omega, e3, e5, e4⟩

/-- Witness for `get_nth_removes`: capacity 4, items 3, 4, 5, 6 stored wrapped
(read cursor at slot 2), offset 1 removes the item 4 across the wrap boundary. -/
theorem get_nth_removes_witness :
    wf ⟨2, 2, 4, 4, [5, 6, 3, 4]⟩ ∧ fits ⟨2, 2, 4, 4, [5, 6, 3, 4]⟩ ∧
    ∃ item rg1, rg_get_nth ⟨2, 2, 4, 4, [5, 6, 3, 4]⟩ 1 = some (item, rg1) ∧
      (contents ⟨2, 2, 4, 4, [5, 6, 3, 4]⟩)[1]? = some item ∧
      rg1.cnt + 1 = (⟨2, 2, 4, 4, [5, 6, 3, 4]⟩ : rg_s).cnt ∧
      rg1.size = (⟨2, 2, 4, 4, [5, 6, 3, 4]⟩ : rg_s).size ∧
      contents rg1 = (contents ⟨2, 2, 4, 4, [5, 6, 3, 4]⟩).eraseIdx 1 ∧ wf rg1 :=
  ⟨by decide, by decide,
    get_nth_removes ⟨2, 2, 4, 4, [5, 6, 3, 4]⟩ 1 1 (by decide) (by decide) (by decide)
      (Or.inl ⟨by decide, by decide⟩)⟩

/-! ## In-place rotation -/

theorem rot_src_step (a m n b i : Nat) (hmn : m ≤ n) (hnb : n < b) (ham : a < m) :
    (let j := (if n + 1 = b then rot_src (a + 1) m m b i
        else if a + 1 = m then rot_src (a + 1) (n + 1) (n + 1) b i
        else rot_src (a + 1) m (n + 1) b i)
     if j = n then a else if j = a then n else j) = rot_src a m n b i := by
  by_cases c1 : n + 1 = b
  · simp only [if_pos c1, rot_src]
    split_ifs <;> omega
  · by_cases c2 : a + 1 = m
    · simp only [if_neg c1, if_pos c2, rot_src]
      split_ifs <;> omega
    · simp only [if_neg c1, if_neg c2, rot_src]
      split_ifs <;> omega

theorem getD_swap (data : List Item) (a n j : Nat) (ha : a < data.length)
    (hn : n < data.length) :
    ((data.set a (data.getD n NULL)).set n (data.getD a NULL)).getD j NULL =
      data.getD (if j = n then a else if j = a then n else j) NULL := by
  rw [getD_set_slot, getD_set_slot, List.length_set]
  split_ifs <;> first | rfl | omega

theorem rg_rotate_loop_spec (fuel : Nat) : ∀ (data : List Item) (a m n b : Nat),
    m ≤ n → n < b → (a < m ∨ (a = m ∧ n = m)) → b ≤ data.length → b ≤ fuel + a →
    ∃ d, rg_rotate_loop fuel data a m n b = some d ∧ d.length = data.length ∧
      ∀ i, d.getD i NULL = data.getD (rot_src a m n b i) NULL := by
  induction fuel with
  | zero =>
    intro data a m n b hmn hnb ham hbl hfuel
    have han : a = n := by omega
    refine ⟨data, by simp [rg_rotate_loop, han], rfl, ?_⟩
    intro i
    apply getD_congr
    simp only [rot_src]
    split_ifs <;> omega
  | succ fuel ih =>
    intro data a m n b hmn hnb ham hbl hfuel
    by_cases han : a = n
    · refine ⟨data, by simp [rg_rotate_loop, han], rfl, ?_⟩
      intro i
      apply getD_congr
      simp only [rot_src]
      split_ifs <;> omega
    · have ham2 : a < m := by omega
      have ha : a < data.length := by omega
      have hn : n < data.length := by omega
      have hlen1 : ((data.set a (data.getD n NULL)).set n (data.getD a NULL)).length =
          data.length := by simp
      have hstep : rg_rotate_loop (fuel + 1) data a m n b =
          (if n + 1 = b then
            rg_rotate_loop fuel ((data.set a (data.getD n NULL)).set n (data.getD a NULL))
              (a + 1) m m b
          else if a + 1 = m then
            rg_rotate_loop fuel ((data.set a (data.getD n NULL)).set n (data.getD a NULL))
              (a + 1) (n + 1) (n + 1) b
          else
            rg_rotate_loop fuel ((data.set a (data.getD n NULL)).set n (data.getD a NULL))
              (a + 1) m (n + 1) b) := by
        rw [rg_rotate_loop]
        simp [han, rg_nth_eq _ _ ha, rg_nth_eq _ _ hn]
      rw [hstep]
      have hfin : ∀ m1 n1, m1 ≤ n1 → n1 < b → (a + 1 < m1 ∨ (a + 1 = m1 ∧ n1 = m1)) →
          (∀ i, (if rot_src (a + 1) m1 n1 b i = n then a
              else if rot_src (a + 1) m1 n1 b i = a then n
              else rot_src (a + 1) m1 n1 b i) = rot_src a m n b i) →
          ∃ d, rg_rotate_loop fuel
              ((data.set a (data.getD n NULL)).set n (data.getD a NULL)) (a + 1) m1 n1 b =
                some d ∧ d.length = data.length ∧
            ∀ i, d.getD i NULL = data.getD (rot_src a m n b i) NULL := by
        intro m1 n1 h1 h2 h3 h4
        obtain ⟨d, hd, hdl, hdj⟩ := ih _ (a + 1) m1 n1 b h1 h2 h3 (by rw [hlen1]; exact hbl)
          (by omega)
        refine ⟨d, hd, by rw [hdl, hlen1], ?_⟩
        intro i
        rw [hdj, getD_swap data a n _ ha hn, h4]
      have hs := rot_src_step a m n b
      by_cases c1 : n + 1 = b
      · rw [if_pos c1]
        apply hfin m m (Nat.le_refl _) (by omega) (by omega)
        intro i
        have := hs i hmn hnb ham2
        simpa [c1] using this
      · rw [if_neg c1]
        by_cases c2 : a + 1 = m
        · rw [if_pos c2]
          apply hfin (n + 1) (n + 1) (Nat.le_refl _) (by omega) (by omega)
          intro i
          have := hs i hmn hnb ham2
          simpa [c1, c2] using this
        · rw [if_neg c2]
          apply hfin m (n + 1) (by omega) (by omega) (by omega)
          intro i
          have := hs i hmn hnb ham2
          simpa [c1, c2] using this

theorem rg_rotate_spec (rg : rg_s) (hlen : rg.data.length = rg.size) (h0 : 0 < rg.ridx)
    (hr : rg.ridx < rg.size) :
    ∃ d, rg_rotate rg 0 rg.ridx rg.size = some { rg with data := d } ∧
      d.length = rg.data.length ∧
      ∀ i, i < rg.size → d.getD i NULL = rg.data.getD ((rg.ridx + i) % rg.size) NULL := by
  obtain ⟨d, hd, hdl, hdj⟩ := rg_rotate_loop_spec (rg.data.length - 0) rg.data 0 rg.ridx
    rg.ridx rg.size (Nat.le_refl _) hr (Or.inl h0) (by omega) (by omega)
  have hd2 : rg_rotate_loop rg.data.length rg.data 0 rg.ridx rg.ridx rg.size = some d := hd
  refine ⟨d, by simp [rg_rotate, hd2], hdl, ?_⟩
  intro i hi
  rw [hdj]
  apply getD_congr
  rw [add_mod_wrap _ _ _ (by omega)]
  simp only [rot_src]
  split_ifs <;> omega

/-! ## Resize -/

theorem rg_realloc_length (data : List Item) (bytes : Nat) (junk : Nat → Item) :
    (rg_realloc data bytes junk).length = rg_slots bytes := by
  simp [rg_realloc]
  omega

theorem rg_realloc_getD (data : List Item) (bytes : Nat) (junk : Nat → Item) (i : Nat)
    (h1 : i < rg_slots bytes) (h2 : i < data.length) :
    (rg_realloc data bytes junk).getD i NULL = data.getD i NULL := by
  simp only [rg_realloc, List.getD_eq_getElem?_getD]
  rw [List.getElem?_append_left (by simp; omega), List.getElem?_take_of_lt h1]

theorem contents_ext (rg rg1 : rg_s) (hcnt : rg1.cnt = rg.cnt)
    (hpt : ∀ i, i < rg.cnt → rg1.data.getD ((rg1.ridx + i) % rg1.size) NULL =
      rg.data.getD ((rg.ridx + i) % rg.size) NULL) :
    contents rg1 = contents rg := by
  apply List.ext_getElem?
  intro i
  rw [contents_getElem?, contents_getElem?, hcnt]
  by_cases hi : i < rg.cnt
  · rw [if_pos hi, if_pos hi, hpt i hi]
  · rw [if_neg hi, if_neg hi]

theorem rg_resize_pack (rg : rg_s) (h : wf rg) :
    ∃ d, (if rg.widx ≤ rg.ridx then
          if rg.ridx ≠ 0 then rg_rotate rg 0 rg.ridx rg.size else some rg
        else (memmove rg.data 0 rg.ridx rg.cnt).bind fun data => some { rg with data := data })
        = some { rg with data := d } ∧ d.length = rg.data.length ∧
      ∀ i, i < rg.cnt → d.getD i NULL = rg.data.getD ((rg.ridx + i) % rg.size) NULL := by
  obtain ⟨hlen, hsz, hr, hw, hc, hwi⟩ := h
  by_cases hwr : rg.widx ≤ rg.ridx
  · rw [if_pos hwr]
    by_cases hr0 : rg.ridx = 0
    · refine ⟨rg.data, by rw [if_neg (by simp [hr0])], rfl, ?_⟩
      intro i hi
      apply getD_congr
      rw [hr0, Nat.zero_add, Nat.mod_eq_of_lt (by omega)]
    · obtain ⟨d, hd, hdl, hdj⟩ := rg_rotate_spec rg hlen (by omega) hr
      refine ⟨d, by simp [hr0, hd], hdl, ?_⟩
      intro i hi
      exact hdj i (by omega)
  · rw [if_neg hwr]
    have hcw : rg.widx = rg.ridx + rg.cnt := by
      rw [add_mod_wrap _ _ _ (by omega)] at hwi
      split_ifs at hwi <;> omega
    obtain ⟨d, hd, hdl, hdj⟩ := memmove_spec rg.data 0 rg.ridx rg.cnt (by omega) (by omega)
    refine ⟨d, by simp [hd], hdl, ?_⟩
    intro i hi
    rw [hdj, if_pos (by omega), Nat.mod_eq_of_lt (by omega)]
    apply getD_congr
    omega

theorem rg_resize_eq (rg : rg_s) (size : Nat) (junk : Nat → Item) (h : wf rg)
    (hne : 0 < rg.cnt) (h1 : rg.cnt ≤ size) (h2 : RG_MIN_SIZE ≤ size) :
    ∃ d, rg_resize rg size junk = some (rg_true,
        { ridx := 0, widx := rg.cnt % size, cnt := rg.cnt, size := size,
          data := rg_realloc d (rg_struct_size size) junk }) ∧
      d.length = rg.data.length ∧
      ∀ i, i < rg.cnt → d.getD i NULL = rg.data.getD ((rg.ridx + i) % rg.size) NULL := by
  obtain ⟨d, hd, hdl, hdj⟩ := rg_resize_pack rg h
  obtain ⟨hlen, hsz, hr, hw, hc, hwi⟩ := h
  have hs2 : 2 ≤ size := h2
  refine ⟨d, ?_, hdl, hdj⟩
  have e1 : ¬ (size < rg.cnt ∨ size < RG_MIN_SIZE) := by omega
  have e2 : rg_is_empty rg = false := by
    simp [rg_is_empty]
    omega
  have e3 : rg_resize rg size junk =
      (if rg.widx ≤ rg.ridx then
        if rg.ridx ≠ 0 then rg_rotate rg 0 rg.ridx rg.size else some rg
      else (memmove rg.data 0 rg.ridx rg.cnt).bind fun data =>
        some { rg with data := data }).bind fun rg1 =>
          some (rg_true, { ridx := 0, widx := rg1.cnt % size, cnt := rg1.cnt, size := size,
                           data := rg_realloc rg1.data (rg_struct_size size) junk }) := by
    unfold rg_resize
    rw [if_neg e1, e2]
    simp only [Bool.false_eq_true, if_false]
    split_ifs <;> first | rfl | (cases memmove rg.data 0 rg.ridx rg.cnt <;> rfl)
  rw [e3, hd]
  rfl

theorem rg_resize_spec (rg : rg_s) (size : Nat) (junk : Nat → Item) (h : wf rg)
    (hne : 0 < rg.cnt) (h1 : rg.cnt ≤ size) (h2 : RG_MIN_SIZE ≤ size)
    (h3 : struct_bytes size < U64) :
    ∃ rg1, rg_resize rg size junk = some (rg_true, rg1) ∧ wf rg1 ∧ rg1.size = size ∧
      rg1.cnt = rg.cnt ∧ rg1.ridx = 0 ∧ contents rg1 = contents rg := by
  obtain ⟨d, e, hdl, hdj⟩ := rg_resize_eq rg size junk h hne h1 h2
  obtain ⟨hlen, hsz, hr, hw, hc, hwi⟩ := h
  have hs2 : 2 ≤ size := h2
  have hsl := rg_slots_struct size h3
  have h64 : size < U64 := by
    have := struct_bytes_bound size h3
    simp only [U64]
    omega
  refine ⟨_, e, ?_, rfl, rfl, rfl, ?_⟩
  · refine ⟨?_, h64, by show 0 < size; omega, Nat.mod_lt _ (by omega), h1, ?_⟩
    · show (rg_realloc d (rg_struct_size size) junk).length = size
      rw [rg_realloc_length, hsl]
    · show rg.cnt % size = (0 + rg.cnt) % size
      rw [Nat.zero_add]
  · apply contents_ext
    · rfl
    · intro i hi
      show (rg_realloc d (rg_struct_size size) junk).getD ((0 + i) % size) NULL = _
      rw [Nat.zero_add, Nat.mod_eq_of_lt (by omega),
        rg_realloc_getD _ _ _ _ (by rw [hsl]; omega) (by omega), hdj i hi]

theorem full_buffer_wf (n : Nat) (h0 : 0 < n) (hn : n < U64) : wf (full_buffer n) := by
  refine ⟨?_, hn, h0, h0, Nat.le_refl _, ?_⟩
  · show (List.replicate n 7).length = n
    exact List.length_replicate n 7
  · show 0 = (0 + n) % n
    rw [Nat.zero_add, Nat.mod_self]

theorem rg_ram_wrapped (rg : rg_s) (item : Item) (junk : Nat → Item) (h : wf rg)
    (hfull : rg.cnt = rg.size) (h2n : 2 * rg.size < U64)
    (hbig : U64 ≤ struct_bytes (2 * rg.size)) : rg_ram rg item junk = none := by
  have hpos : 0 < rg.size := by have := h.2.2.1; omega
  have e0 : (rg_size rg * 2) % U64 = 2 * rg.size := by
    rw [Nat.mod_eq_of_lt (by show rg.size * 2 < U64; omega)]
    show rg.size * 2 = 2 * rg.size
    omega
  obtain ⟨d, e, _, _⟩ := rg_resize_eq rg (2 * rg.size) junk h (by omega) (by omega)
    (by show 2 ≤ 2 * rg.size; omega)
  have hf : rg_is_full rg = true := by simp [rg_is_full, hfull]
  have hsl := rg_slots_wrapped rg.size h2n hbig
  have hw : rg.cnt % (2 * rg.size) = rg.size := by
    rw [hfull, Nat.mod_eq_of_lt (by omega)]
  have hset : rg_nth_set (rg_realloc d (rg_struct_size (2 * rg.size)) junk) rg.size item
      = none := by
    unfold rg_nth_set
    rw [rg_realloc_length, if_neg (by omega)]
  simp only [rg_ram, hf, e0, e, hw, if_true, Option.bind_eq_bind, Option.some_bind, hset,
    Option.none_bind]

theorem rg_get_n_spec (k : Nat) : ∀ rg : rg_s, wf rg → k ≤ rg.cnt →
    ∃ rg1, rg_get_n k rg = some ((contents rg).take k, rg1) := by
  induction k with
  | zero =>
    intro rg _ _
    exact ⟨rg, by simp [rg_get_n]⟩
  | succ k ih =>
    intro rg h hk
    have hne : 0 < rg.cnt := by omega
    obtain ⟨rg1, h1⟩ := ih _ (rg_get_wf rg h hne) (by show k ≤ rg.cnt - 1; omega)
    refine ⟨rg1, ?_⟩
    rw [rg_get_contents rg h hne, List.take_succ_cons]
    simp [rg_get_n, rg_get_eq rg h hne, h1]

theorem rg_resize_accepts (rg : rg_s) (size : Nat) (junk : Nat → Item) (h : wf rg)
    (h1 : rg.cnt ≤ size) (h2 : RG_MIN_SIZE ≤ size) (h3 : struct_bytes size < U64) :
    ∃ rg1, rg_resize rg size junk = some (rg_true, rg1) ∧ rg1.size = size ∧
      rg1.cnt = rg.cnt ∧ contents rg1 = contents rg ∧ (0 < rg.cnt → wf rg1) := by
  rcases Nat.eq_zero_or_pos rg.cnt with h0 | hne
  · have e1 : ¬ (size < rg.cnt ∨ size < RG_MIN_SIZE) := by omega
    have e2 : rg_is_empty rg = true := by simp [rg_is_empty, h0]
    refine ⟨{ rg with ridx := 0, widx := 0, size := size }, ?_, rfl, rfl, ?_, ?_⟩
    · unfold rg_resize
      rw [if_neg e1, e2]
      rfl
    · simp [contents, h0]
    · intro hpos
      omega
  · obtain ⟨rg1, e1, e2, e3, e4, _, e6⟩ := rg_resize_spec rg size junk h hne h1 h2 h3
    exact ⟨rg1, e1, e3, e4, e6, fun _ => e2⟩

/-- C3, counterexample: the well-formed buffer of capacity 2 holding the item 7 is
resized to `2^61`, which is at least `cnt` and at least `RG_MIN_SIZE`.
`rg_resize` returns 1, but `rg_struct_size( 2^61 )` wraps to the 32 bytes of the
header: `rg_realloc` leaves no slot, the item is gone, and the `rg_get` that
follows reads outside the storage. -/
theorem resize_to_wrapped_size_loses :
    wf ⟨0, 1, 1, 2, [7, 0]⟩ ∧ (⟨0, 1, 1, 2, [7, 0]⟩ : rg_s).cnt ≤ 2305843009213693952 ∧
    RG_MIN_SIZE ≤ 2305843009213693952 ∧ 2305843009213693952 < U64 ∧
    rg_resize ⟨0, 1, 1, 2, [7, 0]⟩ 2305843009213693952 (fun _ => NULL) =
      some (rg_true, ⟨0, 1, 1, 2305843009213693952, []⟩) ∧
    contents ⟨0, 1, 1, 2305843009213693952, []⟩ ≠ contents ⟨0, 1, 1, 2, [7, 0]⟩ ∧
    rg_get_n 1 ⟨0, 1, 1, 2305843009213693952, []⟩ = none := by
  decide

/-- C3 (resize never loses or reorders elements, amended): for a well-formed buffer
and a new capacity that is at least `cnt` and at least `RG_MIN_SIZE` and whose
struct size `sizeof( rg_s ) + size * sizeof( void* )` is representable in `size_t`,
`rg_resize` returns 1, `rg_size` becomes the new capacity, `rg_count` is unchanged,
the front-to-back contents are unchanged, and `cnt` calls of `rg_get` afterwards
return exactly the old contents in order. -/
theorem resize_preserves (rg : rg_s) (size : Nat) (junk : Nat → Item) (h : wf rg)
    (h1 : rg.cnt ≤ size) (h2 : RG_MIN_SIZE ≤ size) (h3 : struct_bytes size < U64) :
    ∃ rg1, rg_resize rg size junk = some (rg_true, rg1) ∧ rg_size rg1 = size ∧
      rg_count rg1 = rg_count rg ∧ contents rg1 = contents rg ∧
      ∃ rg2, rg_get_n (rg_count rg) rg1 = some (contents rg, rg2) := by
  obtain ⟨rg1, e1, e3, e4, e6, e2⟩ := rg_resize_accepts rg size junk h h1 h2 h3
  refine ⟨rg1, e1, e3, e4, e6, ?_⟩
  rcases Nat.eq_zero_or_pos rg.cnt with h0 | hne
  · have hc : contents rg = [] := by simp [contents, h0]
    refine ⟨rg1, ?_⟩
    rw [hc]
    simp [rg_count, h0, rg_get_n]
  · obtain ⟨rg2, e7⟩ := rg_get_n_spec rg1.cnt rg1 (e2 hne) (Nat.le_refl _)
    refine ⟨rg2, ?_⟩
    have e8 : (contents rg1).take rg1.cnt = contents rg1 := by
      rw [List.take_of_length_le (by rw [contents_length])]
    rw [e8, e6, e4] at e7
    exact e7

/-- Witness for `resize_preserves`: a wrapped buffer of capacity 7 holding
5, 6, 7, 8, 9, 10, shrunk to capacity 6. -/
theorem resize_preserves_witness :
    wf ⟨4, 3, 6, 7, [8, 9, 10, 0, 5, 6, 7]⟩ ∧ struct_bytes 6 < U64 ∧
    ∃ rg1, rg_resize ⟨4, 3, 6, 7, [8, 9, 10, 0, 5, 6, 7]⟩ 6 (fun _ => NULL) =
        some (rg_true, rg1) ∧ rg_size rg1 = 6 ∧
      rg_count rg1 = rg_count ⟨4, 3, 6, 7, [8, 9, 10, 0, 5, 6, 7]⟩ ∧
      contents rg1 = contents ⟨4, 3, 6, 7, [8, 9, 10, 0, 5, 6, 7]⟩ ∧
      ∃ rg2, rg_get_n (rg_count ⟨4, 3, 6, 7, [8, 9, 10, 0, 5, 6, 7]⟩) rg1 =
        some (contents ⟨4, 3, 6, 7, [8, 9, 10, 0, 5, 6, 7]⟩, rg2) :=
  ⟨by decide, by decide,
    resize_preserves ⟨4, 3, 6, 7, [8, 9, 10, 0, 5, 6, 7]⟩ 6 (fun _ => NULL) (by decide)
      (by decide) (by decide) (by decide)⟩

/-- C5, counterexample: the well-formed full buffer of capacity `N = 2^60` has `2N`
representable in 64 bits, but `rg_struct_size( 2N )` wraps to the 32 bytes of the
header, so `rg_realloc` leaves no slot and the store of `rg_ram` at slot `N` is
outside the storage. -/
theorem ram_full_wrapped_size_undefined :
    wf (full_buffer 1152921504606846976) ∧
    (full_buffer 1152921504606846976).cnt = (full_buffer 1152921504606846976).size ∧
    2 * (full_buffer 1152921504606846976).size < U64 ∧
    rg_ram (full_buffer 1152921504606846976) 9 (fun _ => NULL) = none :=
  ⟨full_buffer_wf _ (by decide) (by decide), rfl, by decide,
    rg_ram_wrapped _ 9 (fun _ => NULL) (full_buffer_wf _ (by decide) (by decide)) rfl
      (by decide) (by decide)⟩

/-- C5 (`rg_ram` on a full buffer, amended): for a well-formed full buffer of
capacity `N` such that the struct size of the doubled capacity,
`sizeof( rg_s ) + 2N * sizeof( void* )`, is representable in `size_t`, `rg_ram`
returns 1, the capacity becomes `2N`, the count becomes `N + 1`, and the
front-to-back contents become the old contents followed by the item. -/
theorem ram_full_doubles (rg : rg_s) (item : Item) (junk : Nat → Item) (h : wf rg)
    (hfull : rg.cnt = rg.size) (h2n : struct_bytes (2 * rg.size) < U64) :
    ∃ rg1, rg_ram rg item junk = some (rg_true, rg1) ∧ rg_size rg1 = 2 * rg.size ∧
      rg_count rg1 = rg.size + 1 ∧ contents rg1 = contents rg ++ [item] := by
  have hpos : 0 < rg.size := by have := h.2.2.1; omega
  have h2b := struct_bytes_bound _ h2n
  have h2u : 2 * rg.size < U64 := by
    simp only [U64]
    omega
  have e0 : (rg_size rg * 2) % U64 = 2 * rg.size := by
    rw [Nat.mod_eq_of_lt (by show rg.size * 2 < U64; omega)]
    show rg.size * 2 = 2 * rg.size
    omega
  obtain ⟨rg1, e1, e2, e3, e4, _, e6⟩ := rg_resize_spec rg (2 * rg.size) junk h (by omega)
    (by omega) (by show 2 ≤ 2 * rg.size; omega) h2n
  have hnf : rg1.cnt < rg1.size := by omega
  have hput := rg_put_eq rg1 item e2 hnf
  have hf : rg_is_full rg = true := by simp [rg_is_full, hfull]
  have hnf1 : rg_is_full rg1 = false := by
    simp [rg_is_full]
    omega
  refine ⟨{ rg1 with data := rg1.data.set rg1.widx item, widx := (rg1.widx + 1) % rg1.size,
                     cnt := rg1.cnt + 1 }, ?_, ?_, ?_, ?_⟩
  · simp only [rg_put, hnf1] at hput
    simp only [rg_ram, hf, e0, e1]
    cases hd : rg_nth_set rg1.data rg1.widx item with
    | none => simp [hd] at hput
    | some d =>
      cases hn : rg_next_index rg1.size rg1.widx with
      | none => simp [hd, hn] at hput
      | some w =>
        simp [hd, hn] at hput
        simp [hd, hn, hput]
  · show rg1.size = 2 * rg.size
    exact e3
  · show rg1.cnt + 1 = rg.size + 1
    omega
  · rw [rg_put_contents rg1 item e2 hnf, e6]

/-- Witness for `ram_full_doubles`: a full wrapped buffer of capacity 4. -/
theorem ram_full_doubles_witness :
    wf ⟨2, 2, 4, 4, [5, 6, 3, 4]⟩ ∧
    struct_bytes (2 * (⟨2, 2, 4, 4, [5, 6, 3, 4]⟩ : rg_s).size) < U64 ∧
    ∃ rg1, rg_ram ⟨2, 2, 4, 4, [5, 6, 3, 4]⟩ 9 (fun _ => NULL) = some (rg_true, rg1) ∧
      rg_size rg1 = 2 * (⟨2, 2, 4, 4, [5, 6, 3, 4]⟩ : rg_s).size ∧
      rg_count rg1 = (⟨2, 2, 4, 4, [5, 6, 3, 4]⟩ : rg_s).size + 1 ∧
      contents rg1 = contents ⟨2, 2, 4, 4, [5, 6, 3, 4]⟩ ++ [9] :=
  ⟨by decide, by decide,
    ram_full_doubles ⟨2, 2, 4, 4, [5, 6, 3, 4]⟩ 9 (fun _ => NULL) (by decide) (by decide)
      (by decide)⟩

/-! ## Double-ended operations and peeking -/

theorem rg_prev_index_eq (size idx : Nat) (h : idx < size) (hb : size < 2305843009213693952) :
    rg_prev_index size idx = some ((idx + size - 1) % size) := by
  have h0 : size ≠ 0 := by omega
  have h1 : (idx + (U64 - 1) + size) % U64 = idx + size - 1 := by
    simp only [U64]
    omega
  simp [rg_prev_index, h0, h1]

theorem prev_mod (idx size : Nat) (h : idx < size) :
    (idx + size - 1) % size = if idx = 0 then size - 1 else idx - 1 := by
  split_ifs with h0
  · subst h0
    rw [Nat.zero_add]
    exact Nat.mod_eq_of_lt (by omega)
  · have e : idx + size - 1 = idx - 1 + size := by omega
    rw [e, Nat.add_mod_right]
    exact Nat.mod_eq_of_lt (by omega)

theorem rg_put_front_eq (rg : rg_s) (item : Item) (h : wf rg) (hf : fits rg)
    (hnf : rg.cnt < rg.size) :
    rg_put_front rg item = some (rg_true,
      { rg with ridx := (rg.ridx + rg.size - 1) % rg.size,
                data := rg.data.set ((rg.ridx + rg.size - 1) % rg.size) item,
                cnt := rg.cnt + 1 }) := by
  have hb := fits_bound rg hf
  obtain ⟨hlen, hsz, hr, hw, hc, hwi⟩ := h
  have h1 : (rg.cnt + 1) % U64 = rg.cnt + 1 := Nat.mod_eq_of_lt (by omega)
  have h2 : ¬ rg.size ≤ rg.cnt := by omega
  have h3 : (rg.ridx + rg.size - 1) % rg.size < rg.data.length := by
    rw [hlen]
    exact Nat.mod_lt _ (by omega)
  simp [rg_put_front, rg_is_full, rg_nth_set, rg_prev_index_eq _ _ hr hb, h1, h2, h3]

theorem rg_put_front_wf (rg : rg_s) (item : Item) (h : wf rg) (hnf : rg.cnt < rg.size) :
    wf { rg with ridx := (rg.ridx + rg.size - 1) % rg.size,
                 data := rg.data.set ((rg.ridx + rg.size - 1) % rg.size) item,
                 cnt := rg.cnt + 1 } := by
  obtain ⟨hlen, hsz, hr, hw, hc, hwi⟩ := h
  refine ⟨by simpa using hlen, hsz, Nat.mod_lt _ (by omega), hw, hnf, ?_⟩
  show rg.widx = ((rg.ridx + rg.size - 1) % rg.size + (rg.cnt + 1)) % rg.size
  rw [add_mod_wrap _ _ _ (by omega)] at hwi
  rw [prev_mod _ _ hr]
  split_ifs with h0
  · rw [add_mod_wrap _ _ _ (by omega)]
    split_ifs at hwi ⊢ <;> omega
  · rw [add_mod_wrap _ _ _ (by omega)]
    split_ifs at hwi ⊢ <;> omega

theorem rg_put_front_contents (rg : rg_s) (item : Item) (h : wf rg)
    (hnf : rg.cnt < rg.size) :
    contents { rg with ridx := (rg.ridx + rg.size - 1) % rg.size,
                       data := rg.data.set ((rg.ridx + rg.size - 1) % rg.size) item,
                       cnt := rg.cnt + 1 } = item :: contents rg := by
  obtain ⟨hlen, hsz, hr, hw, hc, hwi⟩ := h
  apply List.ext_getElem?
  intro i
  rw [contents_getElem?]
  show (if i < rg.cnt + 1 then
      some ((rg.data.set ((rg.ridx + rg.size - 1) % rg.size) item).getD
        (((rg.ridx + rg.size - 1) % rg.size + i) % rg.size) NULL) else none) = _
  rw [getD_set_slot]
  have hk : (rg.ridx + rg.size - 1) % rg.size < rg.size := Nat.mod_lt _ (by omega)
  cases i with
  | zero =>
    simp [Nat.mod_eq_of_lt hk, hlen, hk]
  | succ k =>
    rw [List.getElem?_cons_succ, contents_getElem?]
    by_cases hi : k < rg.cnt
    · have hi2 : k + 1 < rg.cnt + 1 := by omega
      rw [if_pos hi2, if_pos hi]
      have e1 : ((rg.ridx + rg.size - 1) % rg.size + (k + 1)) % rg.size =
          (rg.ridx + k) % rg.size := by
        rw [prev_mod _ _ hr]
        split_ifs with h0
        · rw [add_mod_wrap _ _ _ (by omega), add_mod_wrap _ _ _ (by omega)]
          split_ifs <;> omega
        · rw [add_mod_wrap _ _ _ (by omega), add_mod_wrap _ _ _ (by omega)]
          split_ifs <;> omega
      have e2 : ¬ ((rg.ridx + rg.size - 1) % rg.size = (rg.ridx + k) % rg.size ∧
          (rg.ridx + rg.size - 1) % rg.size < rg.data.length) := by
        rw [prev_mod _ _ hr, add_mod_wrap _ _ _ (by omega)]
        split_ifs <;> omega
      rw [e1, if_neg e2]
    · have hi2 : ¬ k + 1 < rg.cnt + 1 := by omega
      rw [if_neg hi2, if_neg hi]

theorem rg_get_back_eq (rg : rg_s) (h : wf rg) (hf : fits rg) (hne : 0 < rg.cnt) :
    rg_get_back rg = some (rg.data.getD ((rg.widx + rg.size - 1) % rg.size) NULL,
      { rg with widx := (rg.widx + rg.size - 1) % rg.size, cnt := rg.cnt - 1 }) := by
  have hb := fits_bound rg hf
  obtain ⟨hlen, hsz, hr, hw, hc, hwi⟩ := h
  have h1 : (rg.cnt + (U64 - 1)) % U64 = rg.cnt - 1 := by
    simp only [U64] at *
    omega
  have h2 : rg.cnt ≠ 0 := by omega
  have h3 : (rg.widx + rg.size - 1) % rg.size < rg.data.length := by
    rw [hlen]
    exact Nat.mod_lt _ (by omega)
  simp [rg_get_back, rg_is_empty, rg_prev_index_eq _ _ hw hb, h1, h2, rg_nth_eq _ _ h3]

theorem rg_get_back_wf (rg : rg_s) (h : wf rg) (hne : 0 < rg.cnt) :
    wf { rg with widx := (rg.widx + rg.size - 1) % rg.size, cnt := rg.cnt - 1 } := by
  obtain ⟨hlen, hsz, hr, hw, hc, hwi⟩ := h
  refine ⟨hlen, hsz, hr, Nat.mod_lt _ (by omega), ?_, ?_⟩
  · show rg.cnt - 1 ≤ rg.size
    omega
  · show (rg.widx + rg.size - 1) % rg.size = (rg.ridx + (rg.cnt - 1)) % rg.size
    rw [add_mod_wrap _ _ _ (by omega)] at hwi
    rw [prev_mod _ _ hw, add_mod_wrap _ _ _ (by omega)]
    split_ifs at hwi ⊢ <;> omega

theorem rg_get_back_contents (rg : rg_s) (h : wf rg) (hne : 0 < rg.cnt) :
    contents rg =
      contents { rg with widx := (rg.widx + rg.size - 1) % rg.size, cnt := rg.cnt - 1 } ++
        [rg.data.getD ((rg.widx + rg.size - 1) % rg.size) NULL] := by
  obtain ⟨hlen, hsz, hr, hw, hc, hwi⟩ := h
  apply List.ext_getElem?
  intro i
  rw [contents_getElem?]
  have hl :
      (contents { rg with widx := (rg.widx + rg.size - 1) % rg.size, cnt := rg.cnt - 1 }).length =
        rg.cnt - 1 := contents_length _
  rcases Nat.lt_trichotomy i (rg.cnt - 1) with hi | hi | hi
  · rw [List.getElem?_append_left (by rw [hl]; exact hi), contents_getElem?]
    have hi2 : i < rg.cnt := by omega
    rw [if_pos hi2]
    show _ = if i < rg.cnt - 1 then some (rg.data.getD ((rg.ridx + i) % rg.size) NULL) else none
    rw [if_pos hi]
  · rw [List.getElem?_append_right (by rw [hl]; omega), hl]
    have hi2 : i < rg.cnt := by omega
    have e1 : i - (rg.cnt - 1) = 0 := by omega
    rw [if_pos hi2, e1]
    have e2 : (rg.ridx + i) % rg.size = (rg.widx + rg.size - 1) % rg.size := by
      rw [add_mod_wrap _ _ _ (by omega)] at hwi
      rw [prev_mod _ _ hw, add_mod_wrap _ _ _ (by omega)]
      split_ifs at hwi ⊢ <;> omega
    rw [e2]
    rfl
  · rw [List.getElem?_append_right (by rw [hl]; omega), hl]
    have hi2 : ¬ i < rg.cnt := by omega
    rw [if_neg hi2]
    have e1 : i - (rg.cnt - 1) = (i - rg.cnt) + 1 := by omega
    rw [e1]
    rfl

theorem rg_peek_eq (rg : rg_s) (h : wf rg) (hne : 0 < rg.cnt) :
    rg_peek rg = some (rg.data.getD rg.ridx NULL, rg) := by
  obtain ⟨hlen, hsz, hr, hw, hc, hwi⟩ := h
  have h2 : rg.cnt ≠ 0 := by omega
  have h3 : rg.ridx < rg.data.length := by omega
  simp [rg_peek, rg_is_empty, h2, rg_nth_eq _ _ h3]

theorem rg_peek_back_eq (rg : rg_s) (h : wf rg) (hf : fits rg) (hne : 0 < rg.cnt) :
    rg_peek_back rg = some (rg.data.getD ((rg.widx + rg.size - 1) % rg.size) NULL, rg) := by
  have hb := fits_bound rg hf
  obtain ⟨hlen, hsz, hr, hw, hc, hwi⟩ := h
  have h2 : rg.cnt ≠ 0 := by omega
  have h3 : (rg.widx + rg.size - 1) % rg.size < rg.data.length := by
    rw [hlen]
    exact Nat.mod_lt _ (by omega)
  simp [rg_peek_back, rg_is_empty, rg_prev_index_eq _ _ hw hb, h2, rg_nth_eq _ _ h3]

theorem contents_last (rg : rg_s) (h : wf rg) (hne : 0 < rg.cnt) :
    (contents rg).getLast? = some (rg.data.getD ((rg.widx + rg.size - 1) % rg.size) NULL) ∧
    (contents rg).dropLast =
      contents { rg with widx := (rg.widx + rg.size - 1) % rg.size, cnt := rg.cnt - 1 } := by
  rw [rg_get_back_contents rg h hne]
  simp

/-- C13 (boundary symmetry): on a well-formed buffer that is not full,
`rg_put_front( rg, x )` followed by `rg_peek` returns `x`, and `rg_put( rg, x )`
followed by `rg_peek_back` returns `x`; the peeks leave the buffer as the pushes
left it. -/
theorem boundary_symmetry (rg : rg_s) (x : Item) (h : wf rg) (hf : fits rg)
    (hnf : rg_is_full rg = false) :
    (∃ rg1, rg_put_front rg x = some (rg_true, rg1) ∧ rg_peek rg1 = some (x, rg1)) ∧
    (∃ rg2, rg_put rg x = some (rg_true, rg2) ∧ rg_peek_back rg2 = some (x, rg2)) := by
  have hlt : rg.cnt < rg.size := by simpa [rg_is_full] using hnf
  have hk : (rg.ridx + rg.size - 1) % rg.size < rg.data.length := by
    rw [h.1]
    exact Nat.mod_lt _ (by omega)
  constructor
  · refine ⟨_, rg_put_front_eq rg x h hf hlt, ?_⟩
    rw [rg_peek_eq _ (rg_put_front_wf rg x h hlt) (Nat.succ_pos _)]
    show some ((rg.data.set ((rg.ridx + rg.size - 1) % rg.size) x).getD
      ((rg.ridx + rg.size - 1) % rg.size) NULL, _) = _
    rw [getD_set_slot, if_pos ⟨rfl, hk⟩]
  · refine ⟨_, rg_put_eq rg x h hlt, ?_⟩
    rw [rg_peek_back_eq _ (rg_put_wf rg x h hlt) hf (Nat.succ_pos _)]
    show some ((rg.data.set rg.widx x).getD
      (((rg.widx + 1) % rg.size + rg.size - 1) % rg.size) NULL, _) = _
    have hw := h.2.2.2.1
    have e : ((rg.widx + 1) % rg.size + rg.size - 1) % rg.size = rg.widx := by
      have hpos : 0 < rg.size := by omega
      rw [prev_mod ((rg.widx + 1) % rg.size) rg.size (Nat.mod_lt _ hpos),
        add_mod_wrap _ _ _ (by omega)]
      split_ifs <;> first | omega | contradiction
    rw [e, getD_set_slot, if_pos ⟨rfl, by rw [h.1]; exact hw⟩]

/-- Witness for `boundary_symmetry`: a buffer of capacity 4 holding one item, with
the read cursor at slot 0. -/
theorem boundary_symmetry_witness :
    wf ⟨0, 1, 1, 4, [7, 0, 0, 0]⟩ ∧ fits ⟨0, 1, 1, 4, [7, 0, 0, 0]⟩ ∧
    (∃ rg1, rg_put_front ⟨0, 1, 1, 4, [7, 0, 0, 0]⟩ 9 = some (rg_true, rg1) ∧
      rg_peek rg1 = some (9, rg1)) ∧
    (∃ rg2, rg_put ⟨0, 1, 1, 4, [7, 0, 0, 0]⟩ 9 = some (rg_true, rg2) ∧
      rg_peek_back rg2 = some (9, rg2)) :=
  ⟨by decide, by decide,
    boundary_symmetry ⟨0, 1, 1, 4, [7, 0, 0, 0]⟩ 9 (by decide) (by decide) (by decide)⟩

/-- C14 (deque behaviour): on a well-formed buffer with contents `S`, a successful
`rg_put_front( rg, x )` makes the contents `x` followed by `S`, moving only `ridx`,
to `rg_prev_index( size, ridx )` (from 0 to `size - 1`); and on a non-empty buffer
`rg_get_back` returns the last element of `S` and leaves `S` without its last
element, moving only `widx`, backward, and writing no slot. -/
theorem deque_ops (rg : rg_s) (x : Item) (h : wf rg) (hf : fits rg) :
    (rg_is_full rg = false →
      ∃ rg1, rg_put_front rg x = some (rg_true, rg1) ∧ contents rg1 = x :: contents rg ∧
        rg1.widx = rg.widx ∧ rg1.size = rg.size ∧
        rg_prev_index rg.size rg.ridx = some rg1.ridx ∧
        rg1.ridx = (if rg.ridx = 0 then rg.size - 1 else rg.ridx - 1)) ∧
    (0 < rg.cnt →
      ∃ last rg2, rg_get_back rg = some (last, rg2) ∧ (contents rg).getLast? = some last ∧
        contents rg2 = (contents rg).dropLast ∧ rg2.cnt + 1 = rg.cnt ∧
        rg2.ridx = rg.ridx ∧ rg2.size = rg.size ∧ rg2.data = rg.data ∧
        rg2.widx = (if rg.widx = 0 then rg.size - 1 else rg.widx - 1)) := by
  have hb := fits_bound rg hf
  constructor
  · intro hnf
    have hlt : rg.cnt < rg.size := by simpa [rg_is_full] using hnf
    exact ⟨_, rg_put_front_eq rg x h hf hlt, rg_put_front_contents rg x h hlt, rfl, rfl,
      rg_prev_index_eq _ _ h.2.2.1 hb, prev_mod _ _ h.2.2.1⟩
  · intro hne
    obtain ⟨e1, e2⟩ := contents_last rg h hne
    exact ⟨_, _, rg_get_back_eq rg h hf hne, e1, e2.symm, by show rg.cnt - 1 + 1 = rg.cnt; omega,
      rfl, rfl, rfl, prev_mod _ _ h.2.2.2.1⟩

/-- Witness for `deque_ops`: a buffer of capacity 4 holding 7, 8 with the read
cursor at slot 0. -/
theorem deque_ops_witness :
    wf ⟨0, 2, 2, 4, [7, 8, 0, 0]⟩ ∧ fits ⟨0, 2, 2, 4, [7, 8, 0, 0]⟩ ∧
    (∃ rg1, rg_put_front ⟨0, 2, 2, 4, [7, 8, 0, 0]⟩ 9 = some (rg_true, rg1) ∧
      contents rg1 = 9 :: contents ⟨0, 2, 2, 4, [7, 8, 0, 0]⟩ ∧ rg1.ridx = 3) ∧
    (∃ last rg2, rg_get_back ⟨0, 2, 2, 4, [7, 8, 0, 0]⟩ = some (last, rg2) ∧
      last = 8 ∧ contents rg2 = [7]) := by
  refine ⟨by decide, by decide, ?_, ?_⟩
  · obtain ⟨rg1, e1, e2, _, _, _, e6⟩ :=
      (deque_ops ⟨0, 2, 2, 4, [7, 8, 0, 0]⟩ 9 (by decide) (by decide)).1 (by decide)
    exact ⟨rg1, e1, e2, e6⟩
  · obtain ⟨last, rg2, e1, e2, e3, _⟩ :=
      (deque_ops ⟨0, 2, 2, 4, [7, 8, 0, 0]⟩ 9 (by decide) (by decide)).2 (by decide)
    refine ⟨last, rg2, e1, ?_, ?_⟩
    · have e : (contents ⟨0, 2, 2, 4, [7, 8, 0, 0]⟩).getLast? = some 8 := by decide
      rw [e] at e2
      exact (Option.some.inj e2).symm
    · rw [e3]
      decide

/-- C15 (peeking is read-only): on a non-empty well-formed buffer with contents `S`,
`rg_peek` returns the first element of `S`, `rg_peek_back` returns the last element
of `S`, and both return the buffer with every field unchanged. -/
theorem peek_read_only (rg : rg_s) (h : wf rg) (hf : fits rg) (hne : 0 < rg.cnt) :
    ∃ first last, rg_peek rg = some (first, rg) ∧ rg_peek_back rg = some (last, rg) ∧
      (contents rg).head? = some first ∧ (contents rg).getLast? = some last := by
  refine ⟨_, _, rg_peek_eq rg h hne, rg_peek_back_eq rg h hf hne, ?_, (contents_last rg h hne).1⟩
  rw [rg_get_contents rg h hne]
  rfl

/-- Witness for `peek_read_only`: a wrapped buffer holding 3, 4, 5. -/
theorem peek_read_only_witness :
    wf ⟨2, 1, 3, 4, [5, 0, 3, 4]⟩ ∧ fits ⟨2, 1, 3, 4, [5, 0, 3, 4]⟩ ∧
    ∃ first last, rg_peek ⟨2, 1, 3, 4, [5, 0, 3, 4]⟩ = some (first, ⟨2, 1, 3, 4, [5, 0, 3, 4]⟩) ∧
      rg_peek_back ⟨2, 1, 3, 4, [5, 0, 3, 4]⟩ = some (last, ⟨2, 1, 3, 4, [5, 0, 3, 4]⟩) ∧
      (contents ⟨2, 1, 3, 4, [5, 0, 3, 4]⟩).head? = some first ∧
      (contents ⟨2, 1, 3, 4, [5, 0, 3, 4]⟩).getLast? = some last :=
  ⟨by decide, by decide, peek_read_only ⟨2, 1, 3, 4, [5, 0, 3, 4]⟩ (by decide) (by decide)
    (by decide)⟩

/-! ## Positional removal: offset -1 -/

theorem rg_get_nth_spec (rg : rg_s) (pos : Int) (n : Nat) (h : wf rg) (hf : fits rg)
    (hn : n < rg.cnt) (hnp : rg_npos rg pos = n) :
    ∃ rg1, rg_get_nth rg pos = some (rg.data.getD ((rg.ridx + n) % rg.size) NULL, rg1) ∧
      rg1.cnt = rg.cnt - 1 ∧ rg1.size = rg.size ∧ wf rg1 ∧
      contents rg1 = (contents rg).eraseIdx n := by
  by_cases hwr : rg.ridx < rg.widx
  · exact get_nth_contiguous rg pos n h hn hnp hwr
  · by_cases htail : rg.size ≤ rg.ridx + n
    · exact get_nth_wrapped_tail rg pos n h hf hn hnp (by omega) htail
    · exact get_nth_wrapped_head rg pos n h hn hnp (by omega) (by omega)

/-- C11 (`rg_get_nth( rg, -1 )` is `rg_get_back` on the contents): on a non-empty
well-formed buffer both calls return the last element of the contents, and they
leave the same count, the same capacity and the same front-to-back contents. -/
theorem get_nth_last_eq_get_back (rg : rg_s) (h : wf rg) (hf : fits rg) (hne : 0 < rg.cnt) :
    ∃ item rg1 rg2, rg_get_nth rg (-1) = some (item, rg1) ∧
      rg_get_back rg = some (item, rg2) ∧ (contents rg).getLast? = some item ∧
      rg_count rg1 = rg_count rg2 ∧ rg_size rg1 = rg_size rg2 ∧
      contents rg1 = contents rg2 := by
  have hcl : rg.cnt < U64 := by have := h.2.1; have := h.2.2.2.2.1; omega
  have hnp : rg_npos rg (-1) = rg.cnt - 1 :=
    rg_npos_eq rg (-1) (rg.cnt - 1) hcl (by omega) (Or.inr ⟨by decide, by omega⟩)
  obtain ⟨rg1, e1, e2, e3, _, e5⟩ := rg_get_nth_spec rg (-1) (rg.cnt - 1) h hf (by omega) hnp
  obtain ⟨l1, l2⟩ := contents_last rg h hne
  have hidx : (rg.ridx + (rg.cnt - 1)) % rg.size = (rg.widx + rg.size - 1) % rg.size := by
    obtain ⟨hlen, hsz, hr, hw, hc, hwi⟩ := h
    rw [add_mod_wrap _ _ _ (by omega)] at hwi
    rw [prev_mod _ _ hw, add_mod_wrap _ _ _ (by omega)]
    split_ifs at hwi ⊢ <;> omega
  rw [hidx] at e1
  refine ⟨_, rg1, _, e1, rg_get_back_eq rg h hf hne, l1, e2, e3, ?_⟩
  rw [e5, ← l2]
  exact (List.dropLast_eq_eraseIdx (by rw [contents_length]; omega)).symm

/-- Witness for `get_nth_last_eq_get_back`: a contiguous buffer holding 7, 8, 9,
where the two calls leave different storage but the same contents. -/
theorem get_nth_last_eq_get_back_witness :
    wf ⟨0, 3, 3, 4, [7, 8, 9, 0]⟩ ∧ fits ⟨0, 3, 3, 4, [7, 8, 9, 0]⟩ ∧
    ∃ item rg1 rg2, rg_get_nth ⟨0, 3, 3, 4, [7, 8, 9, 0]⟩ (-1) = some (item, rg1) ∧
      rg_get_back ⟨0, 3, 3, 4, [7, 8, 9, 0]⟩ = some (item, rg2) ∧
      (contents ⟨0, 3, 3, 4, [7, 8, 9, 0]⟩).getLast? = some item ∧
      rg_count rg1 = rg_count rg2 ∧ rg_size rg1 = rg_size rg2 ∧
      contents rg1 = contents rg2 :=
  ⟨by decide, by decide,
    get_nth_last_eq_get_back ⟨0, 3, 3, 4, [7, 8, 9, 0]⟩ (by decide) (by decide) (by decide)⟩

/-! ## Creation below the minimum size, and resizing an empty buffer -/

/-- C12 (creation below the minimum size): `rg_new` has no size check.  For the
sizes 0 and 1, both below `RG_MIN_SIZE`, it returns a buffer of that size, although
`rg_resize` rejects the same sizes; on the buffer of size 0 a following `rg_ram`
stores outside the storage. -/
theorem new_below_min_returns_buffer :
    rg_new 1 (fun _ => NULL) = ⟨0, 0, 0, 1, [NULL]⟩ ∧
    rg_new 0 (fun _ => NULL) = ⟨0, 0, 0, 0, []⟩ ∧
    rg_resize (rg_new 4 (fun _ => NULL)) 1 (fun _ => NULL) =
      some (rg_false, rg_new 4 (fun _ => NULL)) ∧
    rg_ram (rg_new 0 (fun _ => NULL)) 5 (fun _ => NULL) = none := by
  decide

/-- C17 (reallocation on resize): on the empty path `rg_resize` records the new size
without reallocating.  Growing the empty buffer of capacity 2 to 4 returns 1 and
leaves a buffer of size 4 whose storage still has 2 slots, so that the third of
three following `rg_put` calls stores outside the storage; the same resize of a
non-empty buffer does reallocate. -/
theorem resize_empty_keeps_storage :
    rg_resize (rg_new 2 (fun _ => NULL)) 4 (fun _ => NULL) =
      some (rg_true, ⟨0, 0, 0, 4, [NULL, NULL]⟩) ∧
    run ⟨0, 0, 0, 4, [NULL, NULL]⟩ [Op.put 1, Op.put 2] =
      Run.done ⟨0, 2, 2, 4, [1, 2]⟩ [] ∧
    rg_put ⟨0, 2, 2, 4, [1, 2]⟩ 3 = none ∧
    rg_resize ⟨0, 1, 1, 2, [1, NULL]⟩ 4 (fun _ => NULL) =
      some (rg_true, ⟨0, 1, 1, 4, [1, NULL, NULL, NULL]⟩) := by
  decide

/-! ## The rotation is a left rotation -/

/-- C18 (in-place rotation): for storage of `size` slots and a pivot `m` with
`0 < m < size`, `rg_rotate( rg, 0, m, size )` returns, changes only the storage,
and leaves slot `i` holding the value previously in slot `(i + m) % size`, for every
`i < size`; with `m = ridx` the first `cnt` slots are then the front-to-back
contents of the buffer. -/
theorem rotate_is_left_rotation (rg : rg_s) (m : Nat) (hlen : rg.data.length = rg.size)
    (h0 : 0 < m) (hm : m < rg.size) :
    ∃ d, rg_rotate rg 0 m rg.size = some { rg with data := d } ∧ d.length = rg.size ∧
      (∀ i, i < rg.size → d.getD i NULL = rg.data.getD ((i + m) % rg.size) NULL) ∧
      (m = rg.ridx → rg.cnt ≤ rg.size → d.take rg.cnt = contents rg) := by
  obtain ⟨d, hd, hdl, hdj⟩ := rg_rotate_loop_spec (rg.data.length - 0) rg.data 0 m m rg.size
    (Nat.le_refl _) hm (Or.inl h0) (by omega) (by omega)
  have hd2 : rg_rotate_loop rg.data.length rg.data 0 m m rg.size = some d := hd
  have hpt : ∀ i, i < rg.size → d.getD i NULL = rg.data.getD ((i + m) % rg.size) NULL := by
    intro i hi
    rw [hdj]
    apply getD_congr
    rw [add_mod_wrap _ _ _ (by omega)]
    simp only [rot_src]
    split_ifs <;> omega
  refine ⟨d, by simp [rg_rotate, hd2], by rw [hdl, hlen], hpt, ?_⟩
  intro hmr hc
  apply List.ext_getElem?
  intro i
  rw [contents_getElem?, List.getElem?_take]
  by_cases hi : i < rg.cnt
  · have hil : i < d.length := by omega
    rw [if_pos hi, if_pos hi, List.getElem?_eq_getElem hil, ← hmr, Nat.add_comm m i,
      ← hpt i (by omega)]
    simp [List.getD_eq_getElem?_getD, List.getElem?_eq_getElem hil]
  · rw [if_neg hi, if_neg hi]

/-- Witness for `rotate_is_left_rotation`: seven slots of a wrapped buffer rotated
around the read cursor 4. -/
theorem rotate_is_left_rotation_witness :
    (⟨4, 3, 6, 7, [8, 9, 10, 0, 5, 6, 7]⟩ : rg_s).data.length = 7 ∧
    ∃ d, rg_rotate ⟨4, 3, 6, 7, [8, 9, 10, 0, 5, 6, 7]⟩ 0 4 7 = some ⟨4, 3, 6, 7, d⟩ ∧
      d.length = 7 ∧
      (∀ i, i < 7 → d.getD i NULL = [8, 9, 10, 0, 5, 6, 7].getD ((i + 4) % 7) NULL) ∧
      (4 = 4 → 6 ≤ 7 → d.take 6 = contents ⟨4, 3, 6, 7, [8, 9, 10, 0, 5, 6, 7]⟩) :=
  ⟨by decide,
    rotate_is_left_rotation ⟨4, 3, 6, 7, [8, 9, 10, 0, 5, 6, 7]⟩ 4 (by decide) (by decide)
      (by decide)⟩

/-! ## The structural invariant -/

theorem next_index_some (size idx k : Nat) (h : idx < size) (hb : size < 2305843009213693952)
    (hk : rg_next_index size idx = some k) : k = (idx + 1) % size := by
  have hs : size < U64 := by simp only [U64]; omega
  rw [rg_next_index_eq size idx h hs] at hk
  exact (Option.some.inj hk).symm

theorem prev_index_some (size idx k : Nat) (h : idx < size) (hb : size < 2305843009213693952)
    (hk : rg_prev_index size idx = some k) : k = (idx + size - 1) % size := by
  rw [rg_prev_index_eq size idx h hb] at hk
  exact (Option.some.inj hk).symm

theorem inv_put (rg : rg_s) (item : Item) (r : Nat) (rg1 : rg_s) (hi : inv rg)
    (hb : rg.size < 2305843009213693952) (hc : rg_put rg item = some (r, rg1)) :
    inv rg1 ∧ rg1.size = rg.size := by
  obtain ⟨h2, hc2, hr, hw, hwi⟩ := hi
  unfold rg_put at hc
  by_cases hf : rg_is_full rg = true
  · simp [hf] at hc
    rw [← hc.2]
    exact ⟨⟨h2, hc2, hr, hw, hwi⟩, rfl⟩
  · have hlt : rg.cnt < rg.size := by simpa [rg_is_full] using hf
    have h1 : (rg.cnt + 1) % U64 = rg.cnt + 1 := by
      simp only [U64]
      omega
    cases hd : rg_nth_set rg.data rg.widx item with
    | none => simp [hf, hd] at hc
    | some d =>
    cases hk : rg_next_index rg.size rg.widx with
    | none => simp [hf, hd, hk] at hc
    | some k =>
    have hk2 := next_index_some _ _ _ hw hb hk
    simp [hf, hd, hk, h1] at hc
    obtain ⟨_, hrg⟩ := hc
    subst hrg hk2
    refine ⟨⟨h2, hlt, hr, Nat.mod_lt _ (by omega), ?_⟩, rfl⟩
    show (rg.widx + 1) % rg.size = (rg.ridx + (rg.cnt + 1)) % rg.size
    rw [add_mod_wrap _ _ _ (by omega)] at hwi
    rw [add_mod_wrap _ _ _ (by omega), add_mod_wrap _ _ _ (by omega)]
    split_ifs at hwi ⊢ <;> omega
theorem some_pair_inj (a b : Item) (x y : rg_s) (h : some (a, x) = some (b, y)) : x = y :=
  (Prod.mk.inj (Option.some.inj h)).2

theorem inv_get_nth (rg : rg_s) (pos : Int) (item : Item) (rg1 : rg_s) (hi : inv rg)
    (hb : rg.size < 2305843009213693952) (hc : rg_get_nth rg pos = some (item, rg1)) :
    inv rg1 ∧ rg1.size = rg.size := by
  obtain ⟨h2, hc2, hr, hw, hwi⟩ := hi
  have h2b : 2 ≤ rg.size := h2
  unfold rg_get_nth at hc
  generalize rg_npos rg pos = n at hc
  by_cases hearly : rg.cnt = 0 ∨ rg.cnt ≤ n
  · have e : (rg_is_empty rg || decide (n ≥ rg.cnt)) = true := by
      simp [rg_is_empty]
      exact hearly
    simp only [e, if_true] at hc
    rw [← some_pair_inj _ _ _ _ hc]
    exact ⟨⟨h2, hc2, hr, hw, hwi⟩, rfl⟩
  · have hn : n < rg.cnt := by omega
    have e : (rg_is_empty rg || decide (n ≥ rg.cnt)) = false := by
      simp [rg_is_empty]
      omega
    have h1 : (rg.cnt + (U64 - 1)) % U64 = rg.cnt - 1 := by
      simp only [U64]
      omega
    have h4 : (rg.ridx + n) % U64 = rg.ridx + n := by
      simp only [U64]
      omega
    have h8 : rg.size ≠ 0 := by omega
    simp only [e, Bool.false_eq_true, if_false, h1, h4] at hc
    rw [add_mod_wrap _ _ _ (by omega)] at hwi
    by_cases hwr : rg.widx > rg.ridx
    · have hcw : rg.widx = rg.ridx + rg.cnt := by split_ifs at hwi <;> omega
      have h9 : (rg.widx + (U64 - 1)) % U64 = rg.widx - 1 := by
        simp only [U64]
        omega
      have h7 : (rg.ridx + 1) % U64 = rg.ridx + 1 := by
        simp only [U64]
        omega
      simp only [hwr, if_true, h7, h9] at hc
      cases hit : rg_nth rg.data (rg.ridx + n) with
      | none => simp [hit] at hc
      | some it =>
      simp only [hit, Option.bind_eq_bind, Option.some_bind] at hc
      by_cases hn0 : rg.ridx + n ≠ rg.ridx
      · simp only [if_pos hn0] at hc
        cases hmv : memmove rg.data (rg.ridx + n) (rg.ridx + n + 1)
            ((rg.widx + (U64 - (rg.ridx + n))) % U64) with
        | none => simp [hmv] at hc
        | some d =>
        simp only [hmv, Option.some_bind] at hc
        rw [← some_pair_inj _ _ _ _ hc]
        refine ⟨⟨h2, ?_, hr, ?_, ?_⟩, rfl⟩
        · show rg.cnt - 1 ≤ rg.size
          omega
        · show rg.widx - 1 < rg.size
          omega
        · show rg.widx - 1 = (rg.ridx + (rg.cnt - 1)) % rg.size
          rw [Nat.mod_eq_of_lt (by omega)]
          omega
      · simp only [if_neg hn0] at hc
        rw [← some_pair_inj _ _ _ _ hc]
        refine ⟨⟨h2, ?_, ?_, hw, ?_⟩, rfl⟩
        · show rg.cnt - 1 ≤ rg.size
          omega
        · show rg.ridx + 1 < rg.size
          omega
        · show rg.widx = (rg.ridx + 1 + (rg.cnt - 1)) % rg.size
          rw [Nat.mod_eq_of_lt (by omega)]
          omega
    · have hcw : rg.widx + rg.size = rg.ridx + rg.cnt := by split_ifs at hwi <;> omega
      have hs64 : rg.size < U64 := by simp only [U64]; omega
      simp only [hwr, if_false, h8, rg_prev_index_eq _ _ hw hb, prev_mod _ _ hw,
        rg_next_index_eq _ _ hr hs64] at hc
      cases hit : rg_nth rg.data ((rg.ridx + n) % rg.size) with
      | none => simp [hit] at hc
      | some it =>
      simp only [hit, Option.bind_eq_bind, Option.some_bind] at hc
      by_cases htail : (rg.ridx + n) % rg.size < rg.widx
      · simp only [if_pos htail] at hc
        have hrg : rg1 = { rg with cnt := rg.cnt - 1, data := rg1.data,
                                   widx := if rg.widx = 0 then rg.size - 1 else rg.widx - 1 } := by
          by_cases hcond : (rg.ridx + n) % rg.size ≠ (rg.widx + (U64 - 1)) % U64
          · simp only [if_pos hcond] at hc
            cases hmv : memmove rg.data ((rg.ridx + n) % rg.size) ((rg.ridx + n) % rg.size + 1)
              ((rg.widx + (U64 - (rg.ridx + n) % rg.size) + (U64 - 1)) % U64) with
            | none => simp [hmv] at hc
            | some d =>
              simp only [hmv, Option.some_bind] at hc
              rw [← some_pair_inj _ _ _ _ hc]
          · simp only [if_neg hcond, Option.some_bind] at hc
            rw [← some_pair_inj _ _ _ _ hc]
        rw [hrg]
        refine ⟨⟨h2, ?_, hr, ?_, ?_⟩, rfl⟩
        · show rg.cnt - 1 ≤ rg.size
          omega
        · show (if rg.widx = 0 then rg.size - 1 else rg.widx - 1) < rg.size
          split_ifs <;> omega
        · show (if rg.widx = 0 then rg.size - 1 else rg.widx - 1) =
            (rg.ridx + (rg.cnt - 1)) % rg.size
          rw [add_mod_wrap _ _ _ (by omega)]
          split_ifs <;> omega
      · simp only [if_neg htail] at hc
        have hrg : rg1 = { rg with cnt := rg.cnt - 1, data := rg1.data,
                                   ridx := (rg.ridx + 1) % rg.size } := by
          by_cases hcond : (rg.ridx + n) % rg.size ≠ rg.ridx
          · simp only [if_pos hcond] at hc
            cases hmv : memmove rg.data (rg.ridx + 1) rg.ridx
              (((rg.ridx + n) % rg.size + (U64 - rg.ridx)) % U64) with
            | none => simp [hmv] at hc
            | some d =>
              simp only [hmv, Option.some_bind] at hc
              rw [← some_pair_inj _ _ _ _ hc]
          · simp only [if_neg hcond, Option.some_bind] at hc
            rw [← some_pair_inj _ _ _ _ hc]
        rw [hrg]
        refine ⟨⟨h2, ?_, ?_, hw, ?_⟩, rfl⟩
        · show rg.cnt - 1 ≤ rg.size
          omega
        · show (rg.ridx + 1) % rg.size < rg.size
          exact Nat.mod_lt _ (by omega)
        · show rg.widx = ((rg.ridx + 1) % rg.size + (rg.cnt - 1)) % rg.size
          rw [add_mod_wrap rg.ridx 1 _ (by omega)]
          split_ifs with hlt
          · rw [add_mod_wrap _ _ _ (by omega)]
            split_ifs <;> omega
          · rw [add_mod_wrap _ _ _ (by omega)]
            split_ifs <;> omega
theorem inv_get (rg : rg_s) (item : Item) (rg1 : rg_s) (hi : inv rg)
    (hb : rg.size < 2305843009213693952) (hc : rg_get rg = some (item, rg1)) :
    inv rg1 ∧ rg1.size = rg.size := by
  obtain ⟨h2, hc2, hr, hw, hwi⟩ := hi
  have h2b : 2 ≤ rg.size := h2
  have hs64 : rg.size < U64 := by simp only [U64]; omega
  unfold rg_get at hc
  by_cases he : rg_is_empty rg = true
  · simp only [he, Bool.not_true, Bool.false_eq_true, if_false] at hc
    rw [← some_pair_inj _ _ _ _ hc]
    exact ⟨⟨h2, hc2, hr, hw, hwi⟩, rfl⟩
  · have hne : 0 < rg.cnt := by
      have : rg.cnt ≠ 0 := by simpa [rg_is_empty] using he
      omega
    have h1 : (rg.cnt + (U64 - 1)) % U64 = rg.cnt - 1 := by
      simp only [U64]
      omega
    have he2 : rg_is_empty rg = false := by simpa using he
    simp only [he2, Bool.not_false, if_true, rg_next_index_eq _ _ hr hs64, h1] at hc
    cases hit : rg_nth rg.data rg.ridx with
    | none => simp [hit] at hc
    | some it =>
    simp only [hit, Option.bind_eq_bind, Option.some_bind] at hc
    rw [← some_pair_inj _ _ _ _ hc]
    refine ⟨⟨h2, ?_, Nat.mod_lt _ (by omega), hw, ?_⟩, rfl⟩
    · show rg.cnt - 1 ≤ rg.size
      omega
    · show rg.widx = ((rg.ridx + 1) % rg.size + (rg.cnt - 1)) % rg.size
      rw [add_mod_wrap _ _ _ (by omega)] at hwi
      rw [add_mod_wrap rg.ridx 1 _ (by omega)]
      split_ifs with hlt
      · rw [add_mod_wrap _ _ _ (by omega)]
        split_ifs at hwi ⊢ <;> omega
      · rw [add_mod_wrap _ _ _ (by omega)]
        split_ifs at hwi ⊢ <;> omega

theorem inv_get_back (rg : rg_s) (item : Item) (rg1 : rg_s) (hi : inv rg)
    (hb : rg.size < 2305843009213693952) (hc : rg_get_back rg = some (item, rg1)) :
    inv rg1 ∧ rg1.size = rg.size := by
  obtain ⟨h2, hc2, hr, hw, hwi⟩ := hi
  have h2b : 2 ≤ rg.size := h2
  unfold rg_get_back at hc
  by_cases he : rg_is_empty rg = true
  · simp only [he, Bool.not_true, Bool.false_eq_true, if_false] at hc
    rw [← some_pair_inj _ _ _ _ hc]
    exact ⟨⟨h2, hc2, hr, hw, hwi⟩, rfl⟩
  · have hne : 0 < rg.cnt := by
      have : rg.cnt ≠ 0 := by simpa [rg_is_empty] using he
      omega
    have h1 : (rg.cnt + (U64 - 1)) % U64 = rg.cnt - 1 := by
      simp only [U64]
      omega
    have he2 : rg_is_empty rg = false := by simpa using he
    simp only [he2, Bool.not_false, if_true, rg_prev_index_eq _ _ hw hb, h1,
      Option.bind_eq_bind, Option.some_bind] at hc
    cases hit : rg_nth rg.data ((rg.widx + rg.size - 1) % rg.size) with
    | none => simp [hit] at hc
    | some it =>
    simp only [hit, Option.some_bind] at hc
    rw [← some_pair_inj _ _ _ _ hc]
    refine ⟨⟨h2, ?_, hr, Nat.mod_lt _ (by omega), ?_⟩, rfl⟩
    · show rg.cnt - 1 ≤ rg.size
      omega
    · show (rg.widx + rg.size - 1) % rg.size = (rg.ridx + (rg.cnt - 1)) % rg.size
      rw [add_mod_wrap _ _ _ (by omega)] at hwi
      rw [prev_mod _ _ hw, add_mod_wrap _ _ _ (by omega)]
      split_ifs at hwi ⊢ <;> omega

theorem inv_put_front (rg : rg_s) (item : Item) (r : Nat) (rg1 : rg_s) (hi : inv rg)
    (hb : rg.size < 2305843009213693952) (hc : rg_put_front rg item = some (r, rg1)) :
    inv rg1 ∧ rg1.size = rg.size := by
  obtain ⟨h2, hc2, hr, hw, hwi⟩ := hi
  have h2b : 2 ≤ rg.size := h2
  unfold rg_put_front at hc
  by_cases hf : rg_is_full rg = true
  · simp only [hf, Bool.not_true, Bool.false_eq_true, if_false] at hc
    rw [← (Prod.mk.inj (Option.some.inj hc)).2]
    exact ⟨⟨h2, hc2, hr, hw, hwi⟩, rfl⟩
  · have hlt : rg.cnt < rg.size := by simpa [rg_is_full] using hf
    have h1 : (rg.cnt + 1) % U64 = rg.cnt + 1 := by
      simp only [U64]
      omega
    have hf2 : rg_is_full rg = false := by simpa using hf
    simp only [hf2, Bool.not_false, if_true, rg_prev_index_eq _ _ hr hb, h1,
      Option.bind_eq_bind, Option.some_bind] at hc
    cases hd : rg_nth_set rg.data ((rg.ridx + rg.size - 1) % rg.size) item with
    | none => simp [hd] at hc
    | some d =>
    simp only [hd, Option.some_bind] at hc
    rw [← (Prod.mk.inj (Option.some.inj hc)).2]
    refine ⟨⟨h2, hlt, Nat.mod_lt _ (by omega), hw, ?_⟩, rfl⟩
    show rg.widx = ((rg.ridx + rg.size - 1) % rg.size + (rg.cnt + 1)) % rg.size
    rw [add_mod_wrap _ _ _ (by omega)] at hwi
    rw [prev_mod _ _ hr]
    split_ifs with h0
    · rw [add_mod_wrap _ _ _ (by omega)]
      split_ifs at hwi ⊢ <;> omega
    · rw [add_mod_wrap _ _ _ (by omega)]
      split_ifs at hwi ⊢ <;> omega

theorem peek_same (rg : rg_s) (item : Item) (rg1 : rg_s)
    (hc : rg_peek rg = some (item, rg1)) : rg1 = rg := by
  unfold rg_peek at hc
  split_ifs at hc
  · cases hit : rg_nth rg.data rg.ridx with
    | none => simp [hit] at hc
    | some it =>
      simp only [hit, Option.bind_eq_bind, Option.some_bind] at hc
      exact (some_pair_inj _ _ _ _ hc).symm
  · exact (some_pair_inj _ _ _ _ hc).symm

theorem peek_back_same (rg : rg_s) (item : Item) (rg1 : rg_s)
    (hc : rg_peek_back rg = some (item, rg1)) : rg1 = rg := by
  unfold rg_peek_back at hc
  split_ifs at hc
  · cases hp : rg_prev_index rg.size rg.widx with
    | none => simp [hp] at hc
    | some k =>
    cases hit : rg_nth rg.data k with
    | none => simp [hp, hit] at hc
    | some it =>
      simp only [hp, hit, Option.bind_eq_bind, Option.some_bind] at hc
      exact (some_pair_inj _ _ _ _ hc).symm
  · exact (some_pair_inj _ _ _ _ hc).symm
theorem rg_rotate_fields (rg : rg_s) (a m b : Nat) (rg1 : rg_s)
    (h : rg_rotate rg a m b = some rg1) : rg1.cnt = rg.cnt := by
  unfold rg_rotate at h
  cases hl : rg_rotate_loop (rg.data.length - a) rg.data a m m b with
  | none => simp [hl] at h
  | some d =>
    simp only [hl, Option.bind_eq_bind, Option.some_bind] at h
    rw [← Option.some.inj h]

theorem rg_resize_fields (rg : rg_s) (size : Nat) (junk : Nat → Item) (r : Nat) (rg1 : rg_s)
    (hc : rg_resize rg size junk = some (r, rg1)) :
    (size < rg.cnt ∨ size < RG_MIN_SIZE → r = rg_false ∧ rg1 = rg) ∧
    (¬ (size < rg.cnt ∨ size < RG_MIN_SIZE) →
      r = rg_true ∧ rg1.ridx = 0 ∧ rg1.widx = rg.cnt % size ∧ rg1.cnt = rg.cnt ∧
        rg1.size = size ∧
        (0 < rg.cnt → rg1.data.length = rg_slots (rg_struct_size size))) := by
  constructor
  · intro hbad
    unfold rg_resize at hc
    rw [if_pos hbad] at hc
    have := Prod.mk.inj (Option.some.inj hc)
    exact ⟨this.1.symm, this.2.symm⟩
  · intro hok
    by_cases he : rg_is_empty rg = true
    · have h0 : rg.cnt = 0 := by simpa [rg_is_empty] using he
      unfold rg_resize at hc
      rw [if_neg hok, he] at hc
      simp only [if_true] at hc
      have := Prod.mk.inj (Option.some.inj hc)
      rw [← this.2, ← this.1, h0]
      exact ⟨rfl, rfl, by simp, rfl, rfl, fun hpos => absurd hpos (Nat.lt_irrefl 0)⟩
    · have he2 : rg_is_empty rg = false := by simpa using he
      have e3 : rg_resize rg size junk =
          (if rg.widx ≤ rg.ridx then
            if rg.ridx ≠ 0 then rg_rotate rg 0 rg.ridx rg.size else some rg
          else (memmove rg.data 0 rg.ridx rg.cnt).bind fun data =>
            some { rg with data := data }).bind fun rg1 =>
              some (rg_true, { ridx := 0, widx := rg1.cnt % size, cnt := rg1.cnt, size := size,
                               data := rg_realloc rg1.data (rg_struct_size size) junk }) := by
        unfold rg_resize
        rw [if_neg hok, he2]
        simp only [Bool.false_eq_true, if_false]
        split_ifs <;> first | rfl | (cases memmove rg.data 0 rg.ridx rg.cnt <;> rfl)
      rw [e3] at hc
      cases hp : (if rg.widx ≤ rg.ridx then
            if rg.ridx ≠ 0 then rg_rotate rg 0 rg.ridx rg.size else some rg
          else (memmove rg.data 0 rg.ridx rg.cnt).bind fun data =>
            some { rg with data := data }) with
      | none =>
        rw [hp] at hc
        simp at hc
      | some rgp =>
        have hcnt : rgp.cnt = rg.cnt := by
          split_ifs at hp
          · exact rg_rotate_fields _ _ _ _ _ hp
          · rw [← Option.some.inj hp]
          · cases hm : memmove rg.data 0 rg.ridx rg.cnt with
            | none => simp [hm] at hp
            | some d =>
              simp only [hm, Option.some_bind] at hp
              rw [← Option.some.inj hp]
        rw [hp] at hc
        simp only [Option.some_bind] at hc
        have := Prod.mk.inj (Option.some.inj hc)
        rw [← this.2, ← this.1, hcnt]
        exact ⟨rfl, rfl, rfl, rfl, rfl, fun _ => rg_realloc_length _ _ _⟩

theorem inv_resize (rg : rg_s) (size : Nat) (junk : Nat → Item) (r : Nat) (rg1 : rg_s)
    (hi : inv rg) (hc : rg_resize rg size junk = some (r, rg1)) : inv rg1 := by
  obtain ⟨f1, f2⟩ := rg_resize_fields rg size junk r rg1 hc
  by_cases hbad : size < rg.cnt ∨ size < RG_MIN_SIZE
  · rw [(f1 hbad).2]
    exact hi
  · obtain ⟨_, e1, e2, e3, e4, _⟩ := f2 hbad
    have h2 : 2 ≤ size := by
      have : ¬ size < RG_MIN_SIZE := fun h => hbad (Or.inr h)
      simp only [RG_MIN_SIZE] at this
      omega
    refine ⟨by rw [e4]; exact h2, by rw [e3, e4]; omega, by rw [e1, e4]; omega,
      by rw [e2, e4]; exact Nat.mod_lt _ (by omega), ?_⟩
    rw [e1, e2, e3, e4, Nat.zero_add]

theorem inv_ram (rg : rg_s) (item : Item) (junk : Nat → Item) (r : Nat) (rg1 : rg_s)
    (hi : inv rg) (hf : fits rg)
    (hc : rg_ram rg item junk = some (r, rg1)) : inv rg1 ∧ fits rg1 := by
  have hb := fits_bound rg hf
  have h2b : 2 ≤ rg.size := hi.1
  have key : ∀ rgm : rg_s, inv rgm → rgm.cnt < rgm.size → rgm.size < 4611686018427387904 →
      ((rg_nth_set rgm.data rgm.widx item).bind fun data =>
        (rg_next_index rgm.size rgm.widx).bind fun widx =>
          some (r, { rgm with data := data, widx := widx, cnt := (rgm.cnt + 1) % U64 })) =
        some (r, rg1) → inv rg1 ∧ rg1.size = rgm.size := by
    intro rgm him hlt hbm hcm
    obtain ⟨h2, hc2, hr, hw, hwi⟩ := him
    have hs64 : rgm.size < U64 := by simp only [U64]; omega
    have h1 : (rgm.cnt + 1) % U64 = rgm.cnt + 1 := by
      simp only [U64]
      omega
    cases hd : rg_nth_set rgm.data rgm.widx item with
    | none => simp [hd] at hcm
    | some d =>
    simp only [hd, Option.some_bind, rg_next_index_eq _ _ hw hs64, h1] at hcm
    rw [← (Prod.mk.inj (Option.some.inj hcm)).2]
    refine ⟨⟨h2, hlt, hr, Nat.mod_lt _ (by omega), ?_⟩, rfl⟩
    show (rgm.widx + 1) % rgm.size = (rgm.ridx + (rgm.cnt + 1)) % rgm.size
    rw [add_mod_wrap _ _ _ (by omega)] at hwi
    rw [add_mod_wrap _ _ _ (by omega), add_mod_wrap _ _ _ (by omega)]
    split_ifs at hwi ⊢ <;> omega
  unfold rg_ram at hc
  by_cases hf1 : rg_is_full rg = true
  · have hfull : rg.size ≤ rg.cnt := by simpa [rg_is_full] using hf1
    have e0 : (rg_size rg * 2) % U64 = 2 * rg.size := by
      simp only [rg_size, U64]
      omega
    cases hres : rg_resize rg (2 * rg.size) junk with
    | none => simp [hf1, e0, hres] at hc
    | some p =>
      obtain ⟨r2, rgm⟩ := p
      have hok : ¬ (2 * rg.size < rg.cnt ∨ 2 * rg.size < RG_MIN_SIZE) := by
        have := hi.2.1
        simp only [RG_MIN_SIZE]
        omega
      obtain ⟨_, e1, e2, e3, e4, e5⟩ := (rg_resize_fields rg _ junk r2 rgm hres).2 hok
      have him := inv_resize rg _ junk r2 rgm hi hres
      have hcnt := hi.2.1
      simp only [hf1, e0, hres, if_true, Option.bind_eq_bind, Option.some_bind] at hc
      cases hd : rg_nth_set rgm.data rgm.widx item with
      | none => simp [hd] at hc
      | some d =>
      have hfit : struct_bytes (2 * rg.size) < U64 := by
        by_contra hnf
        have h2u : 2 * rg.size < U64 := by
          simp only [U64]
          omega
        have hsl := rg_slots_wrapped rg.size h2u (Nat.le_of_not_lt hnf)
        have hlen := e5 (by omega)
        have hwm : rgm.widx = rg.size := by
          rw [e2, Nat.mod_eq_of_lt (by omega)]
          omega
        have hlt : rgm.widx < rgm.data.length := by
          by_contra hn
          unfold rg_nth_set at hd
          rw [if_neg hn] at hd
          exact Option.noConfusion hd
        omega
      have hr1 : r = rg_true := by
        cases hn : rg_next_index rgm.size rgm.widx with
        | none => simp [hd, hn] at hc
        | some w =>
          simp only [hd, hn, Option.some_bind] at hc
          exact (Prod.mk.inj (Option.some.inj hc)).1.symm
      rw [← hr1] at hc
      obtain ⟨k1, k2⟩ := key rgm him (by omega) (by omega) hc
      refine ⟨k1, ?_⟩
      show struct_bytes rg1.size < U64
      rw [k2, e4]
      exact hfit
  · have hf2 : rg_is_full rg = false := by simpa using hf1
    have hlt : rg.cnt < rg.size := by simpa [rg_is_full] using hf2
    simp only [hf2, Bool.false_eq_true, if_false, Option.bind_eq_bind, Option.some_bind] at hc
    have hr1 : r = rg_false := by
      cases hd : rg_nth_set rg.data rg.widx item with
      | none => simp [hd] at hc
      | some d =>
      cases hn : rg_next_index rg.size rg.widx with
      | none => simp [hd, hn] at hc
      | some w =>
        simp only [hd, hn, Option.some_bind] at hc
        exact (Prod.mk.inj (Option.some.inj hc)).1.symm
    rw [← hr1] at hc
    obtain ⟨k1, k2⟩ := key rg hi hlt (by omega) hc
    refine ⟨k1, ?_⟩
    show struct_bytes rg1.size < U64
    rw [k2]
    exact hf

theorem some_pair_fst (a b : Item) (x y : rg_s) (h : some (a, x) = some (b, y)) : a = b :=
  (Prod.mk.inj (Option.some.inj h)).1

theorem rg_get_nth_item (rg : rg_s) (pos : Int) (item : Item) (rg1 : rg_s) (hi : inv rg)
    (hb : rg.size < 2305843009213693952) (hn : rg_npos rg pos < rg.cnt)
    (hc : rg_get_nth rg pos = some (item, rg1)) :
    rg_nth rg.data ((rg.ridx + rg_npos rg pos) % rg.size) = some item := by
  obtain ⟨h2, hc2, hr, hw, hwi⟩ := hi
  have h2b : 2 ≤ rg.size := h2
  unfold rg_get_nth at hc
  generalize rg_npos rg pos = n at hc hn ⊢
  have e : (rg_is_empty rg || decide (n ≥ rg.cnt)) = false := by
    simp [rg_is_empty]
    omega
  have h1 : (rg.cnt + (U64 - 1)) % U64 = rg.cnt - 1 := by
    simp only [U64]
    omega
  have h4 : (rg.ridx + n) % U64 = rg.ridx + n := by
    simp only [U64]
    omega
  have h8 : rg.size ≠ 0 := by omega
  simp only [e, Bool.false_eq_true, if_false, h1, h4] at hc
  rw [add_mod_wrap _ _ _ (by omega)] at hwi
  by_cases hwr : rg.widx > rg.ridx
  · have hcw : rg.widx = rg.ridx + rg.cnt := by split_ifs at hwi <;> omega
    have h9 : (rg.widx + (U64 - 1)) % U64 = rg.widx - 1 := by
      simp only [U64]
      omega
    have h7 : (rg.ridx + 1) % U64 = rg.ridx + 1 := by
      simp only [U64]
      omega
    simp only [hwr, if_true, h7, h9] at hc
    rw [Nat.mod_eq_of_lt (by omega)]
    cases hit : rg_nth rg.data (rg.ridx + n) with
    | none => simp [hit] at hc
    | some it =>
    simp only [hit, Option.bind_eq_bind, Option.some_bind] at hc
    by_cases hn0 : rg.ridx + n ≠ rg.ridx
    · simp only [if_pos hn0] at hc
      cases hmv : memmove rg.data (rg.ridx + n) (rg.ridx + n + 1)
          ((rg.widx + (U64 - (rg.ridx + n))) % U64) with
      | none => simp [hmv] at hc
      | some d =>
      simp only [hmv, Option.some_bind] at hc
      rw [some_pair_fst _ _ _ _ hc]
    · simp only [if_neg hn0] at hc
      rw [some_pair_fst _ _ _ _ hc]
  · have hs64 : rg.size < U64 := by simp only [U64]; omega
    simp only [hwr, if_false, h8, rg_prev_index_eq _ _ hw hb, prev_mod _ _ hw,
      rg_next_index_eq _ _ hr hs64] at hc
    cases hit : rg_nth rg.data ((rg.ridx + n) % rg.size) with
    | none => simp [hit] at hc
    | some it =>
    simp only [hit, Option.bind_eq_bind, Option.some_bind] at hc
    by_cases htail : (rg.ridx + n) % rg.size < rg.widx
    · simp only [if_pos htail] at hc
      by_cases hcond : (rg.ridx + n) % rg.size ≠ (rg.widx + (U64 - 1)) % U64
      · simp only [if_pos hcond] at hc
        cases hmv : memmove rg.data ((rg.ridx + n) % rg.size) ((rg.ridx + n) % rg.size + 1)
          ((rg.widx + (U64 - (rg.ridx + n) % rg.size) + (U64 - 1)) % U64) with
        | none => simp [hmv] at hc
        | some d =>
          simp only [hmv, Option.some_bind] at hc
          rw [some_pair_fst _ _ _ _ hc]
      · simp only [if_neg hcond, Option.some_bind] at hc
        rw [some_pair_fst _ _ _ _ hc]
    · simp only [if_neg htail] at hc
      by_cases hcond : (rg.ridx + n) % rg.size ≠ rg.ridx
      · simp only [if_pos hcond] at hc
        cases hmv : memmove rg.data (rg.ridx + 1) rg.ridx
          (((rg.ridx + n) % rg.size + (U64 - rg.ridx)) % U64) with
        | none => simp [hmv] at hc
        | some d =>
          simp only [hmv, Option.some_bind] at hc
          rw [some_pair_fst _ _ _ _ hc]
      · simp only [if_neg hcond, Option.some_bind] at hc
        rw [some_pair_fst _ _ _ _ hc]

theorem call_inv (rg : rg_s) (c : Call) (rg1 : rg_s) (hi : inv rg) (hf : fits rg)
    (hcf : call_fits c) (hc : call rg c = some rg1) : inv rg1 ∧ fits rg1 := by
  have hb := fits_bound rg hf
  have keep : ∀ x : rg_s, inv x ∧ x.size = rg.size → inv x ∧ fits x := by
    intro x hx
    refine ⟨hx.1, ?_⟩
    show struct_bytes x.size < U64
    rw [hx.2]
    exact hf
  cases c with
  | put item =>
    cases hr : rg_put rg item with
    | none => simp [call, hr] at hc
    | some p =>
      have e : p.2 = rg1 := by simpa [call, hr] using hc
      rw [← e]
      exact keep _ (inv_put rg item p.1 p.2 hi hb hr)
  | get =>
    cases hr : rg_get rg with
    | none => simp [call, hr] at hc
    | some p =>
      have e : p.2 = rg1 := by simpa [call, hr] using hc
      rw [← e]
      exact keep _ (inv_get rg p.1 p.2 hi hb hr)
  | ram item junk =>
    cases hr : rg_ram rg item junk with
    | none => simp [call, hr] at hc
    | some p =>
      have e : p.2 = rg1 := by simpa [call, hr] using hc
      rw [← e]
      exact inv_ram rg item junk p.1 p.2 hi hf hr
  | put_front item =>
    cases hr : rg_put_front rg item with
    | none => simp [call, hr] at hc
    | some p =>
      have e : p.2 = rg1 := by simpa [call, hr] using hc
      rw [← e]
      exact keep _ (inv_put_front rg item p.1 p.2 hi hb hr)
  | get_back =>
    cases hr : rg_get_back rg with
    | none => simp [call, hr] at hc
    | some p =>
      have e : p.2 = rg1 := by simpa [call, hr] using hc
      rw [← e]
      exact keep _ (inv_get_back rg p.1 p.2 hi hb hr)
  | peek =>
    cases hr : rg_peek rg with
    | none => simp [call, hr] at hc
    | some p =>
      have e : p.2 = rg1 := by simpa [call, hr] using hc
      have := peek_same rg p.1 p.2 hr
      rw [← e, this]
      exact ⟨hi, hf⟩
  | peek_back =>
    cases hr : rg_peek_back rg with
    | none => simp [call, hr] at hc
    | some p =>
      have e : p.2 = rg1 := by simpa [call, hr] using hc
      have := peek_back_same rg p.1 p.2 hr
      rw [← e, this]
      exact ⟨hi, hf⟩
  | get_nth pos =>
    cases hr : rg_get_nth rg pos with
    | none => simp [call, hr] at hc
    | some p =>
      have e : p.2 = rg1 := by simpa [call, hr] using hc
      rw [← e]
      exact keep _ (inv_get_nth rg pos p.1 p.2 hi hb hr)
  | resize size junk =>
    cases hr : rg_resize rg size junk with
    | none => simp [call, hr] at hc
    | some p =>
      have e : p.2 = rg1 := by simpa [call, hr] using hc
      rw [← e]
      refine ⟨inv_resize rg size junk p.1 p.2 hi hr, ?_⟩
      obtain ⟨f1, f2⟩ := rg_resize_fields rg size junk p.1 p.2 hr
      by_cases hbad : size < rg.cnt ∨ size < RG_MIN_SIZE
      · rw [(f1 hbad).2]
        exact hf
      · show struct_bytes p.2.size < U64
        rw [(f2 hbad).2.2.2.2.1]
        exact hcf

theorem steps_inv (cs : List Call) : ∀ rg rg1 : rg_s, inv rg → fits rg →
    (∀ c ∈ cs, call_fits c) → steps rg cs = some rg1 → inv rg1 ∧ fits rg1 := by
  induction cs with
  | nil =>
    intro rg rg1 hi hf _ hs
    have e : rg = rg1 := by simpa [steps] using hs
    rw [← e]
    exact ⟨hi, hf⟩
  | cons c cs ih =>
    intro rg rg1 hi hf hcs hs
    cases hc : call rg c with
    | none => simp [steps, hc] at hs
    | some rg2 =>
      have e : steps rg2 cs = some rg1 := by simpa [steps, hc] using hs
      obtain ⟨i2, f2⟩ := call_inv rg c rg2 hi hf (hcs c (List.mem_cons_self c cs)) hc
      exact ih rg2 rg1 i2 f2 (fun c1 h1 => hcs c1 (List.mem_cons_of_mem c h1)) e

/-- C16, counterexample: from `rg_new( 2 )`, `rg_resize` to `2^64 - 1` (accepted on the
empty buffer without any reallocation), two `rg_put` and one `rg_get_back` all stay
inside the two allocated slots, yet `rg_prev_index` wraps in 64 bits and leaves
`widx = 0` with `ridx = 0` and `cnt = 1`: `widx = (ridx + cnt) % size` fails. -/
theorem invariant_broken_by_wrapped_size :
    RG_MIN_SIZE ≤ 2 ∧
    steps (rg_new 2 (fun _ => NULL))
      [Call.resize 18446744073709551615 (fun _ => NULL), Call.put 1, Call.put 2,
       Call.get_back] = some ⟨0, 0, 1, 18446744073709551615, [1, 2]⟩ ∧
    (⟨0, 0, 1, 18446744073709551615, [1, 2]⟩ : rg_s).widx ≠
      ((⟨0, 0, 1, 18446744073709551615, [1, 2]⟩ : rg_s).ridx +
        rg_count ⟨0, 0, 1, 18446744073709551615, [1, 2]⟩) %
        rg_size ⟨0, 0, 1, 18446744073709551615, [1, 2]⟩ ∧
    ¬ inv ⟨0, 0, 1, 18446744073709551615, [1, 2]⟩ := by
  decide

/-- C16 (structural invariant, amended): every buffer reached from `rg_new( size )`
with `size >= RG_MIN_SIZE` by a sequence of `rg_put`, `rg_get`, `rg_ram`,
`rg_put_front`, `rg_get_back`, `rg_peek`, `rg_peek_back`, `rg_get_nth` and `rg_resize`
calls, each with defined behaviour, where `size` and every size handed to
`rg_resize` has a struct size `sizeof( rg_s ) + size * sizeof( void* )` that is
representable in `size_t`, satisfies `size >= RG_MIN_SIZE`, `cnt <= size`,
`ridx < size`, `widx < size` and `widx = (ridx + cnt) % size`; logical element `i` is
the slot `(ridx + i) % size`, a slot index below `size`, and it is the slot whose
value `rg_get_nth( rg, i )` returns whenever that call has defined behaviour. -/
theorem structural_invariant (size : Nat) (junk : Nat → Item) (cs : List Call) (rg : rg_s)
    (h2 : RG_MIN_SIZE ≤ size) (hf : struct_bytes size < U64)
    (hcs : ∀ c ∈ cs, call_fits c)
    (hs : steps (rg_new size junk) cs = some rg) :
    RG_MIN_SIZE ≤ rg_size rg ∧ rg_count rg ≤ rg_size rg ∧ rg.ridx < rg_size rg ∧
      rg.widx < rg_size rg ∧ rg.widx = (rg.ridx + rg_count rg) % rg_size rg ∧
      ∀ i, i < rg_count rg →
        (contents rg)[i]? = some (rg.data.getD ((rg.ridx + i) % rg_size rg) NULL) ∧
          (rg.ridx + i) % rg_size rg < rg_size rg ∧
          ∀ item rg1, rg_get_nth rg (i : Int) = some (item, rg1) →
            rg_nth rg.data ((rg.ridx + i) % rg_size rg) = some item := by
  have h2b : 2 ≤ size := h2
  have h0 : inv (rg_new size junk) := by
    refine ⟨h2, Nat.zero_le _, ?_, ?_, ?_⟩
    · show 0 < size
      omega
    · show 0 < size
      omega
    · show 0 = (0 + 0) % size
      simp
  obtain ⟨⟨i1, i2, i3, i4, i5⟩, hfr⟩ := steps_inv cs _ rg h0 hf hcs hs
  refine ⟨i1, i2, i3, i4, i5, ?_⟩
  have hb := fits_bound rg hfr
  have hpos : 0 < rg.size := by
    have : 2 ≤ rg.size := i1
    omega
  intro i hi
  have hi2 : i < rg.cnt := hi
  refine ⟨contents_getD rg i hi, Nat.mod_lt _ hpos, ?_⟩
  intro item rg1 hc
  have hc64 : rg.cnt < U64 := by
    simp only [U64]
    omega
  have hnp : rg_npos rg (i : Int) = i :=
    rg_npos_eq rg (i : Int) i hc64 hi (Or.inl ⟨Int.natCast_nonneg i, rfl⟩)
  have := rg_get_nth_item rg (i : Int) item rg1 ⟨i1, i2, i3, i4, i5⟩ hb
    (by rw [hnp]; exact hi) hc
  rw [hnp] at this
  exact this

/-- Witness for `structural_invariant`: the sample sequence of calls run from the
buffer of capacity 2. -/
theorem structural_invariant_witness :
    RG_MIN_SIZE ≤ 2 ∧ struct_bytes 2 < U64 ∧ (∀ c ∈ sample_calls, call_fits c) ∧
    steps (rg_new 2 (fun _ => NULL)) sample_calls = some ⟨0, 1, 1, 5, [6, 2, 0]⟩ ∧
    inv ⟨0, 1, 1, 5, [6, 2, 0]⟩ := by
  have hs : steps (rg_new 2 (fun _ => NULL)) sample_calls = some ⟨0, 1, 1, 5, [6, 2, 0]⟩ := by
    decide
  have hcs : ∀ c ∈ sample_calls, call_fits c := by decide
  obtain ⟨i1, i2, i3, i4, i5, _⟩ :=
    structural_invariant 2 (fun _ => NULL) sample_calls _ (by decide) (by decide) hcs hs
  exact ⟨by decide, by decide, hcs, hs, i1, i2, i3, i4, i5⟩

/-! ## The memmove of the positional removal -/

theorem rg_get_nth_move_sound (rg : rg_s) (pos : Int) (item : Item) (rg1 : rg_s)
    (hc : rg_get_nth rg pos = some (item, rg1)) :
    (rg_get_nth_move rg pos = none → rg1.data = rg.data) ∧
    (∀ mv, rg_get_nth_move rg pos = some mv →
      memmove rg.data mv.dst mv.src mv.n = some rg1.data) := by
  unfold rg_get_nth at hc
  unfold rg_get_nth_move
  generalize rg_npos rg pos = n at hc ⊢
  by_cases hearly : (rg_is_empty rg || decide (n ≥ rg.cnt)) = true
  · simp only [hearly, if_true] at hc ⊢
    rw [← some_pair_inj _ _ _ _ hc]
    exact ⟨fun _ => rfl, fun mv h => by simp at h⟩
  · have e : (rg_is_empty rg || decide (n ≥ rg.cnt)) = false := by simpa using hearly
    simp only [e, Bool.false_eq_true, if_false] at hc ⊢
    by_cases hwr : rg.widx > rg.ridx
    · simp only [hwr, if_true] at hc ⊢
      cases hit : rg_nth rg.data ((rg.ridx + n) % U64) with
      | none => simp [hit] at hc
      | some it =>
      simp only [hit, Option.bind_eq_bind, Option.some_bind] at hc
      by_cases hn0 : (rg.ridx + n) % U64 ≠ rg.ridx
      · simp only [if_pos hn0] at hc ⊢
        cases hmv : memmove rg.data ((rg.ridx + n) % U64) ((rg.ridx + n) % U64 + 1)
            ((rg.widx + (U64 - (rg.ridx + n) % U64)) % U64) with
        | none => simp [hmv] at hc
        | some d =>
        simp only [hmv, Option.some_bind] at hc
        rw [← some_pair_inj _ _ _ _ hc]
        refine ⟨fun h => by simp at h, fun mv h => ?_⟩
        rw [← Option.some.inj h]
        exact hmv
      · simp only [if_neg hn0] at hc ⊢
        rw [← some_pair_inj _ _ _ _ hc]
        exact ⟨fun _ => rfl, fun mv h => by simp at h⟩
    · simp only [hwr, if_false] at hc ⊢
      by_cases h8 : rg.size = 0
      · simp [h8] at hc
      · simp only [h8, if_false] at hc ⊢
        cases hit : rg_nth rg.data ((rg.ridx + n) % U64 % rg.size) with
        | none => simp [hit] at hc
        | some it =>
        simp only [hit, Option.bind_eq_bind, Option.some_bind] at hc
        by_cases htail : (rg.ridx + n) % U64 % rg.size < rg.widx
        · simp only [if_pos htail] at hc ⊢
          cases hp : rg_prev_index rg.size rg.widx with
          | none => 
            split_ifs at hc
            · cases hmv : memmove rg.data ((rg.ridx + n) % U64 % rg.size)
                  ((rg.ridx + n) % U64 % rg.size + 1)
                  ((rg.widx + (U64 - (rg.ridx + n) % U64 % rg.size) + (U64 - 1)) % U64) <;>
                simp [hmv, hp] at hc
            · simp [hp] at hc
          | some k =>
          by_cases hcond : (rg.ridx + n) % U64 % rg.size ≠ (rg.widx + (U64 - 1)) % U64
          · simp only [if_pos hcond] at hc ⊢
            cases hmv : memmove rg.data ((rg.ridx + n) % U64 % rg.size)
                ((rg.ridx + n) % U64 % rg.size + 1)
                ((rg.widx + (U64 - (rg.ridx + n) % U64 % rg.size) + (U64 - 1)) % U64) with
            | none => simp [hmv] at hc
            | some d =>
            simp only [hmv, hp, Option.some_bind] at hc
            rw [← some_pair_inj _ _ _ _ hc]
            refine ⟨fun h => by simp at h, fun mv h => ?_⟩
            rw [← Option.some.inj h]
            exact hmv
          · simp only [if_neg hcond, hp, Option.some_bind] at hc ⊢
            rw [← some_pair_inj _ _ _ _ hc]
            exact ⟨fun _ => rfl, fun mv h => by simp at h⟩
        · simp only [if_neg htail] at hc ⊢
          cases hp : rg_next_index rg.size rg.ridx with
          | none => 
            split_ifs at hc
            · cases hmv : memmove rg.data (rg.ridx + 1) rg.ridx
                  (((rg.ridx + n) % U64 % rg.size + (U64 - rg.ridx)) % U64) <;>
                simp [hmv, hp] at hc
            · simp [hp] at hc
          | some k =>
          by_cases hcond : (rg.ridx + n) % U64 % rg.size ≠ rg.ridx
          · simp only [if_pos hcond] at hc ⊢
            cases hmv : memmove rg.data (rg.ridx + 1) rg.ridx
                (((rg.ridx + n) % U64 % rg.size + (U64 - rg.ridx)) % U64) with
            | none => simp [hmv] at hc
            | some d =>
            simp only [hmv, hp, Option.some_bind] at hc
            rw [← some_pair_inj _ _ _ _ hc]
            refine ⟨fun h => by simp at h, fun mv h => ?_⟩
            rw [← Option.some.inj h]
            exact hmv
          · simp only [if_neg hcond, hp, Option.some_bind] at hc ⊢
            rw [← some_pair_inj _ _ _ _ hc]
            exact ⟨fun _ => rfl, fun mv h => by simp at h⟩

theorem rg_get_nth_move_eq (rg : rg_s) (pos : Int) (n : Nat) (h : wf rg) (hf : fits rg)
    (hn : n < rg.cnt) (hnp : rg_npos rg pos = n) :
    rg_get_nth_move rg pos =
      if rg.ridx < rg.widx then
        if n ≠ 0 then some ⟨rg.ridx + n, rg.ridx + n + 1, rg.cnt - n⟩ else none
      else if rg.size ≤ rg.ridx + n then
        if n + 1 ≠ rg.cnt then
          some ⟨rg.ridx + n - rg.size, rg.ridx + n - rg.size + 1, rg.cnt - 1 - n⟩
        else none
      else
        if n ≠ 0 then some ⟨rg.ridx + 1, rg.ridx, n⟩ else none := by
  have hb := fits_bound rg hf
  obtain ⟨hlen, hsz, hr, hw, hc, hwi⟩ := h
  have e : (rg_is_empty rg || decide (n ≥ rg.cnt)) = false := by
    simp [rg_is_empty]
    omega
  have h4 : (rg.ridx + n) % U64 = rg.ridx + n := by
    simp only [U64]
    omega
  have h8 : rg.size ≠ 0 := by omega
  unfold rg_get_nth_move
  simp only [hnp]
  simp only [e, Bool.false_eq_true, if_false, h4]
  rw [add_mod_wrap _ _ _ (by omega)] at hwi
  by_cases hwr : rg.ridx < rg.widx
  · have hcw : rg.widx = rg.ridx + rg.cnt := by split_ifs at hwi <;> omega
    have hwr2 : rg.widx > rg.ridx := hwr
    have h10 : (rg.widx + (U64 - (rg.ridx + n))) % U64 = rg.cnt - n := by
      simp only [U64]
      omega
    simp only [hwr, hwr2, if_true, h10]
    by_cases hn0 : n = 0
    · have c1 : ¬ (rg.ridx + n ≠ rg.ridx) := by omega
      have c2 : ¬ (n ≠ 0) := by omega
      rw [if_neg c1, if_neg c2]
    · have c1 : rg.ridx + n ≠ rg.ridx := by omega
      rw [if_pos c1, if_pos hn0]
  · have hcw : rg.widx + rg.size = rg.ridx + rg.cnt := by split_ifs at hwi <;> omega
    have hwr2 : ¬ rg.widx > rg.ridx := hwr
    simp only [hwr, hwr2, if_false, h8]
    rw [add_mod_wrap _ _ _ (by omega)]
    by_cases htail : rg.size ≤ rg.ridx + n
    · have c0 : ¬ rg.ridx + n < rg.size := by omega
      have c1 : rg.ridx + n - rg.size < rg.widx := by omega
      have h9 : (rg.widx + (U64 - 1)) % U64 = rg.widx - 1 := by
        simp only [U64]
        omega
      have h10 : (rg.widx + (U64 - (rg.ridx + n - rg.size)) + (U64 - 1)) % U64 =
          rg.cnt - 1 - n := by
        simp only [U64]
        omega
      simp only [if_neg c0, if_pos c1, if_pos htail, h9, h10]
      by_cases hlast : n + 1 = rg.cnt
      · have c2 : ¬ (rg.ridx + n - rg.size ≠ rg.widx - 1) := by omega
        have c3 : ¬ (n + 1 ≠ rg.cnt) := by omega
        rw [if_neg c2, if_neg c3]
      · have c2 : rg.ridx + n - rg.size ≠ rg.widx - 1 := by omega
        rw [if_pos c2, if_pos hlast]
    · have c0 : rg.ridx + n < rg.size := by omega
      have c1 : ¬ rg.ridx + n < rg.widx := by omega
      have h10 : (rg.ridx + n + (U64 - rg.ridx)) % U64 = n := by
        simp only [U64]
        omega
      simp only [if_pos c0, if_neg c1, if_neg htail, h10]
      by_cases hn0 : n = 0
      · have c2 : ¬ (rg.ridx + n ≠ rg.ridx) := by omega
        have c3 : ¬ (n ≠ 0) := by omega
        rw [if_neg c2, if_neg c3]
      · have c2 : rg.ridx + n ≠ rg.ridx := by omega
        rw [if_pos c2, if_pos hn0]

/-- C19 (which run `rg_get_nth` shifts), as amended: for a well-formed buffer and a
valid normalized offset `n`, `rg_get_nth` returns and its storage changes exactly by
its one `memmove` (or not at all when it issues none); the number of slots moved is
`n` (the run in front) when the target lies in the wrapped head segment, `cnt - 1 - n`
(the run behind) when it lies in the wrapped tail segment, and in the contiguous
layout 0 for `n = 0` and otherwise at most `cnt - n` (the run behind).  The run is
chosen by the layout, not by its length. -/
theorem get_nth_moved_slots (rg : rg_s) (pos : Int) (n : Nat) (h : wf rg) (hf : fits rg)
    (hn : n < rg.cnt)
    (hp : (0 ≤ pos ∧ pos = (n : Int)) ∨ (pos < 0 ∧ (rg.cnt : Int) + pos = (n : Int))) :
    (∃ item rg1, rg_get_nth rg pos = some (item, rg1) ∧
      (rg_get_nth_move rg pos = none → rg1.data = rg.data) ∧
      (∀ mv, rg_get_nth_move rg pos = some mv →
        memmove rg.data mv.dst mv.src mv.n = some rg1.data)) ∧
    (¬ rg.ridx < rg.widx → rg.ridx + n < rg.size → rg_get_nth_moved rg pos = n) ∧
    (¬ rg.ridx < rg.widx → rg.size ≤ rg.ridx + n → rg_get_nth_moved rg pos = rg.cnt - 1 - n) ∧
    (rg.ridx < rg.widx → (n = 0 → rg_get_nth_moved rg pos = 0) ∧
      rg_get_nth_moved rg pos ≤ rg.cnt - n) := by
  have hcl : rg.cnt < U64 := by have := h.2.1; have := h.2.2.2.2.1; omega
  have hnp : rg_npos rg pos = n := rg_npos_eq rg pos n hcl hn hp
  have hmv := rg_get_nth_move_eq rg pos n h hf hn hnp
  obtain ⟨rg1, e1, _⟩ := rg_get_nth_spec rg pos n h hf hn hnp
  refine ⟨⟨_, rg1, e1, rg_get_nth_move_sound rg pos _ rg1 e1⟩, ?_, ?_, ?_⟩
  · intro hwr hhead
    have c : ¬ rg.size ≤ rg.ridx + n := by omega
    rw [if_neg hwr, if_neg c] at hmv
    unfold rg_get_nth_moved
    rw [hmv]
    split_ifs with h0
    · rfl
    · show 0 = n
      omega
  · intro hwr htail
    rw [if_neg hwr, if_pos htail] at hmv
    unfold rg_get_nth_moved
    rw [hmv]
    split_ifs with h0
    · rfl
    · show 0 = rg.cnt - 1 - n
      omega
  · intro hwr
    rw [if_pos hwr] at hmv
    unfold rg_get_nth_moved
    rw [hmv]
    constructor
    · intro h0
      rw [if_neg (by omega)]
    · split_ifs with h0
      · exact Nat.le_refl _
      · exact Nat.zero_le _

/-- Witness for `get_nth_moved_slots`: a full wrapped buffer holding 1, 2, 3, 4 with
one element in the head segment; offset 1 moves the two slots behind the target. -/
theorem get_nth_moved_slots_witness :
    wf ⟨3, 3, 4, 4, [2, 3, 4, 1]⟩ ∧ fits ⟨3, 3, 4, 4, [2, 3, 4, 1]⟩ ∧
    rg_get_nth_moved ⟨3, 3, 4, 4, [2, 3, 4, 1]⟩ 1 =
      (⟨3, 3, 4, 4, [2, 3, 4, 1]⟩ : rg_s).cnt - 1 - 1 :=
  ⟨by decide, by decide,
    (get_nth_moved_slots ⟨3, 3, 4, 4, [2, 3, 4, 1]⟩ 1 1 (by decide) (by decide) (by decide)
      (Or.inl ⟨by decide, by decide⟩)).2.2.1 (by decide) (by decide)⟩

/-- Counterexample to C19 as stated: in the full wrapped buffer holding 1, 2, 3, 4
with one element in the head segment, removing offset 1 moves 2 slots, more than
`min( n, cnt - 1 - n ) = 1`. -/
theorem get_nth_not_shorter_run :
    wf ⟨3, 3, 4, 4, [2, 3, 4, 1]⟩ ∧ fits ⟨3, 3, 4, 4, [2, 3, 4, 1]⟩ ∧
    rg_npos ⟨3, 3, 4, 4, [2, 3, 4, 1]⟩ 1 = 1 ∧
    rg_get_nth ⟨3, 3, 4, 4, [2, 3, 4, 1]⟩ 1 = some (2, ⟨3, 2, 3, 4, [3, 4, 4, 1]⟩) ∧
    rg_get_nth_move ⟨3, 3, 4, 4, [2, 3, 4, 1]⟩ 1 = some ⟨0, 1, 2⟩ ∧
    ¬ (rg_get_nth_moved ⟨3, 3, 4, 4, [2, 3, 4, 1]⟩ 1 ≤ min 1 (4 - 1 - 1)) := by
  decide

theorem get_nth_boundary_move (rg : rg_s) (pos : Int) (n : Nat) (h : wf rg) (hf : fits rg)
    (hn : n < rg.cnt) (hnp : rg_npos rg pos = n) :
    (n = 0 → rg_get_nth_move rg pos = none) ∧
    (¬ rg.ridx < rg.widx → rg.size ≤ rg.ridx + n → n + 1 = rg.cnt →
      rg_get_nth_move rg pos = none) ∧
    (rg.ridx < rg.widx → n ≠ 0 → n + 1 = rg.cnt →
      rg_get_nth_move rg pos = some ⟨rg.widx - 1, rg.widx, 1⟩) := by
  have hmv := rg_get_nth_move_eq rg pos n h hf hn hnp
  obtain ⟨hlen, hsz, hr, hw, hc, hwi⟩ := h
  rw [add_mod_wrap _ _ _ (by omega)] at hwi
  refine ⟨?_, ?_, ?_⟩
  · intro h0
    rw [hmv]
    have c : ¬ rg.size ≤ rg.ridx + n := by omega
    have c2 : ¬ (n ≠ 0) := by omega
    simp only [if_neg c, if_neg c2, ite_self]
  · intro hwr htail hlast
    have c2 : ¬ (n + 1 ≠ rg.cnt) := by omega
    rw [hmv, if_neg hwr, if_pos htail, if_neg c2]
  · intro hwr h0 hlast
    have hcw : rg.widx = rg.ridx + rg.cnt := by split_ifs at hwi <;> omega
    rw [hmv, if_pos hwr, if_pos h0]
    have e1 : rg.ridx + n = rg.widx - 1 := by omega
    have e2 : rg.widx - 1 + 1 = rg.widx := by omega
    have e3 : rg.cnt - n = 1 := by omega
    rw [e1, e2, e3]

/-- C20 (boundary removal): in the contiguous layout a target at `widx - 1` that is
not at `ridx` is removed with a `memmove` of one slot, which overwrites slot
`widx - 1` with the unoccupied slot `widx`; the wrapped-tail branch, for the same
kind of target, issues no `memmove` and leaves the storage as it was. -/
theorem get_nth_back_boundary_moves :
    rg_get_nth_move ⟨0, 2, 2, 4, [1, 2, 9, 0]⟩ 1 = some ⟨1, 2, 1⟩ ∧
    rg_get_nth ⟨0, 2, 2, 4, [1, 2, 9, 0]⟩ 1 = some (2, ⟨0, 1, 1, 4, [1, 9, 9, 0]⟩) ∧
    rg_get_nth_move ⟨3, 2, 3, 4, [2, 3, 9, 1]⟩ 2 = none ∧
    rg_get_nth ⟨3, 2, 3, 4, [2, 3, 9, 1]⟩ 2 = some (3, ⟨3, 1, 2, 4, [2, 3, 9, 1]⟩) := by
  decide

/-! ## Index safety of the positional removal -/

theorem rg_get_nth_idx_eq (rg : rg_s) (pos : Int) (n : Nat) (h : wf rg) (hf : fits rg)
    (hn : n < rg.cnt) (hnp : rg_npos rg pos = n) :
    rg_get_nth_idx rg pos = some ((rg.ridx + n) % rg.size) := by
  have hb := fits_bound rg hf
  obtain ⟨hlen, hsz, hr, hw, hc, hwi⟩ := h
  have e : (rg_is_empty rg || decide (n ≥ rg.cnt)) = false := by
    simp [rg_is_empty]
    omega
  have h4 : (rg.ridx + n) % U64 = rg.ridx + n := by
    simp only [U64]
    omega
  have h8 : rg.size ≠ 0 := by omega
  unfold rg_get_nth_idx
  simp only [hnp]
  simp only [e, Bool.false_eq_true, if_false, h4, h8]
  rw [add_mod_wrap _ _ _ (by omega)] at hwi
  by_cases hwr : rg.widx > rg.ridx
  · have hcw : rg.widx = rg.ridx + rg.cnt := by split_ifs at hwi <;> omega
    rw [if_pos hwr, Nat.mod_eq_of_lt (by omega)]
  · rw [if_neg hwr]

theorem rg_get_nth_subs_eq (rg : rg_s) (pos : Int) (n : Nat) (h : wf rg) (hf : fits rg)
    (hn : n < rg.cnt) (hnp : rg_npos rg pos = n) :
    rg_get_nth_subs rg pos =
      if rg.ridx < rg.widx then
        if n ≠ 0 then [(rg.widx, rg.ridx + n)] else []
      else if rg.size ≤ rg.ridx + n then
        if n + 1 ≠ rg.cnt then
          [(rg.widx, 1), (rg.widx, rg.ridx + n - rg.size),
            (rg.widx - (rg.ridx + n - rg.size), 1)]
        else [(rg.widx, 1)]
      else
        if n ≠ 0 then [(rg.ridx + n, rg.ridx)] else [] := by
  have hb := fits_bound rg hf
  obtain ⟨hlen, hsz, hr, hw, hc, hwi⟩ := h
  have e : (rg_is_empty rg || decide (n ≥ rg.cnt)) = false := by
    simp [rg_is_empty]
    omega
  have h4 : (rg.ridx + n) % U64 = rg.ridx + n := by
    simp only [U64]
    omega
  have h8 : rg.size ≠ 0 := by omega
  unfold rg_get_nth_subs
  simp only [hnp]
  simp only [e, Bool.false_eq_true, if_false, h4]
  rw [add_mod_wrap _ _ _ (by omega)] at hwi
  by_cases hwr : rg.ridx < rg.widx
  · have hwr2 : rg.widx > rg.ridx := hwr
    simp only [hwr, hwr2, if_true]
    by_cases hn0 : n = 0
    · have c1 : ¬ (rg.ridx + n ≠ rg.ridx) := by omega
      have c2 : ¬ (n ≠ 0) := by omega
      rw [if_neg c1, if_neg c2]
    · have c1 : rg.ridx + n ≠ rg.ridx := by omega
      rw [if_pos c1, if_pos hn0]
  · have hcw : rg.widx + rg.size = rg.ridx + rg.cnt := by split_ifs at hwi <;> omega
    have hwr2 : ¬ rg.widx > rg.ridx := hwr
    simp only [hwr, hwr2, if_false, h8]
    rw [add_mod_wrap _ _ _ (by omega)]
    by_cases htail : rg.size ≤ rg.ridx + n
    · have c0 : ¬ rg.ridx + n < rg.size := by omega
      have c1 : rg.ridx + n - rg.size < rg.widx := by omega
      have h9 : (rg.widx + (U64 - 1)) % U64 = rg.widx - 1 := by
        simp only [U64]
        omega
      have h10 : (rg.widx + (U64 - (rg.ridx + n - rg.size))) % U64 =
          rg.widx - (rg.ridx + n - rg.size) := by
        simp only [U64]
        omega
      simp only [if_neg c0, if_pos c1, if_pos htail, h9, h10]
      by_cases hlast : n + 1 = rg.cnt
      · have c2 : ¬ (rg.ridx + n - rg.size ≠ rg.widx - 1) := by omega
        have c3 : ¬ (n + 1 ≠ rg.cnt) := by omega
        rw [if_neg c2, if_neg c3]
      · have c2 : rg.ridx + n - rg.size ≠ rg.widx - 1 := by omega
        rw [if_pos c2, if_pos hlast]
    · have c0 : rg.ridx + n < rg.size := by omega
      have c1 : ¬ rg.ridx + n < rg.widx := by omega
      simp only [if_pos c0, if_neg c1, if_neg htail]
      by_cases hn0 : n = 0
      · have c2 : ¬ (rg.ridx + n ≠ rg.ridx) := by omega
        have c3 : ¬ (n ≠ 0) := by omega
        rw [if_neg c2, if_neg c3]
      · have c2 : rg.ridx + n ≠ rg.ridx := by omega
        rw [if_pos c2, if_pos hn0]

/-- C21 (index safety of `rg_get_nth`): for a well-formed buffer whose storage has
`size` slots and every `pos`, `rg_get_nth` returns without touching a slot outside
the storage: the slot of the item lookup is below `size` and holds the returned
item; every `memmove` it issues has its source and destination ranges inside
`[0, size)` (in the contiguous branch the last slot read is `widx`, below `size`);
and in none of the subtractions between unsigned indices does the subtrahend
exceed the minuend. -/
theorem get_nth_index_safe (rg : rg_s) (pos : Int) (h : wf rg) (hf : fits rg) :
    ∃ item rg1, rg_get_nth rg pos = some (item, rg1) ∧
      (∀ idx, rg_get_nth_idx rg pos = some idx →
        idx < rg.size ∧ rg_nth rg.data idx = some item) ∧
      (∀ mv, rg_get_nth_move rg pos = some mv →
        0 < mv.n ∧ mv.src + mv.n ≤ rg.size ∧ mv.dst + mv.n ≤ rg.size ∧
          (rg.ridx < rg.widx → mv.src + mv.n - 1 = rg.widx ∧ rg.widx < rg.size)) ∧
      (∀ p, p ∈ rg_get_nth_subs rg pos → p.2 ≤ p.1) := by
  generalize hnp : rg_npos rg pos = n
  by_cases hearly : rg.cnt = 0 ∨ rg.cnt ≤ n
  · have e : (rg_is_empty rg || decide (n ≥ rg.cnt)) = true := by
      simp [rg_is_empty]
      exact hearly
    refine ⟨NULL, rg, ?_, ?_, ?_, ?_⟩
    · unfold rg_get_nth
      simp only [hnp]
      simp only [e, if_true]
    · intro idx hidx
      unfold rg_get_nth_idx at hidx
      simp only [hnp] at hidx
      simp [e] at hidx
    · intro mv hmv
      unfold rg_get_nth_move at hmv
      simp only [hnp] at hmv
      simp [e] at hmv
    · intro p hp
      unfold rg_get_nth_subs at hp
      simp only [hnp] at hp
      simp [e] at hp
  · have hn : n < rg.cnt := by omega
    obtain ⟨rg1, e1, _⟩ := rg_get_nth_spec rg pos n h hf hn hnp
    have hidx := rg_get_nth_idx_eq rg pos n h hf hn hnp
    have hmv := rg_get_nth_move_eq rg pos n h hf hn hnp
    have hsub := rg_get_nth_subs_eq rg pos n h hf hn hnp
    have hb := fits_bound rg hf
    obtain ⟨hlen, hsz, hr, hw, hc, hwi⟩ := h
    have hpos : 0 < rg.size := by omega
    refine ⟨_, rg1, e1, ?_, ?_, ?_⟩
    · intro idx hi
      rw [hidx] at hi
      rw [← Option.some.inj hi]
      exact ⟨Nat.mod_lt _ hpos, rg_nth_eq _ _ (by rw [hlen]; exact Nat.mod_lt _ hpos)⟩
    · intro mv hm
      rw [hmv] at hm
      rw [add_mod_wrap _ _ _ (by omega)] at hwi
      by_cases hwr : rg.ridx < rg.widx
      · have hcw : rg.widx = rg.ridx + rg.cnt := by split_ifs at hwi <;> omega
        rw [if_pos hwr] at hm
        by_cases hn0 : n ≠ 0
        · rw [if_pos hn0] at hm
          rw [← Option.some.inj hm]
          refine ⟨?_, ?_, ?_, fun _ => ⟨?_, hw⟩⟩
          · show 0 < rg.cnt - n
            omega
          · show rg.ridx + n + 1 + (rg.cnt - n) ≤ rg.size
            omega
          · show rg.ridx + n + (rg.cnt - n) ≤ rg.size
            omega
          · show rg.ridx + n + 1 + (rg.cnt - n) - 1 = rg.widx
            omega
        · rw [if_neg hn0] at hm
          simp at hm
      · have hcw : rg.widx + rg.size = rg.ridx + rg.cnt := by split_ifs at hwi <;> omega
        rw [if_neg hwr] at hm
        by_cases htail : rg.size ≤ rg.ridx + n
        · rw [if_pos htail] at hm
          by_cases hlast : n + 1 ≠ rg.cnt
          · rw [if_pos hlast] at hm
            rw [← Option.some.inj hm]
            refine ⟨?_, ?_, ?_, fun hc2 => absurd hc2 hwr⟩
            · show 0 < rg.cnt - 1 - n
              omega
            · show rg.ridx + n - rg.size + 1 + (rg.cnt - 1 - n) ≤ rg.size
              omega
            · show rg.ridx + n - rg.size + (rg.cnt - 1 - n) ≤ rg.size
              omega
          · rw [if_neg hlast] at hm
            simp at hm
        · rw [if_neg htail] at hm
          by_cases hn0 : n ≠ 0
          · rw [if_pos hn0] at hm
            rw [← Option.some.inj hm]
            refine ⟨?_, ?_, ?_, fun hc2 => absurd hc2 hwr⟩
            · show 0 < n
              omega
            · show rg.ridx + n ≤ rg.size
              omega
            · show rg.ridx + 1 + n ≤ rg.size
              omega
          · rw [if_neg hn0] at hm
            simp at hm
    · intro p hp
      rw [hsub] at hp
      rw [add_mod_wrap _ _ _ (by omega)] at hwi
      by_cases hwr : rg.ridx < rg.widx
      · have hcw : rg.widx = rg.ridx + rg.cnt := by split_ifs at hwi <;> omega
        rw [if_pos hwr] at hp
        split_ifs at hp
        · simp only [List.mem_singleton] at hp
          rw [hp]
          show rg.ridx + n ≤ rg.widx
          omega
        · simp at hp
      · have hcw : rg.widx + rg.size = rg.ridx + rg.cnt := by split_ifs at hwi <;> omega
        rw [if_neg hwr] at hp
        by_cases htail : rg.size ≤ rg.ridx + n
        · rw [if_pos htail] at hp
          split_ifs at hp
          · simp only [List.mem_cons, List.mem_singleton, List.not_mem_nil, or_false] at hp
            rcases hp with hp | hp | hp
            · rw [hp]
              show 1 ≤ rg.widx
              omega
            · rw [hp]
              show rg.ridx + n - rg.size ≤ rg.widx
              omega
            · rw [hp]
              show 1 ≤ rg.widx - (rg.ridx + n - rg.size)
              omega
          · simp only [List.mem_singleton] at hp
            rw [hp]
            show 1 ≤ rg.widx
            omega
        · rw [if_neg htail] at hp
          split_ifs at hp
          · simp only [List.mem_singleton] at hp
            rw [hp]
            show rg.ridx ≤ rg.ridx + n
            omega
          · simp at hp

/-- Witness for `get_nth_index_safe`: a contiguous buffer holding 7, 8, 9 in slots
1 to 3 of 5, offset 1; the `memmove` reads slots 3 and 4, the latter being `widx`. -/
theorem get_nth_index_safe_witness :
    wf ⟨1, 4, 3, 5, [0, 7, 8, 9, 0]⟩ ∧ fits ⟨1, 4, 3, 5, [0, 7, 8, 9, 0]⟩ ∧
    rg_get_nth_idx ⟨1, 4, 3, 5, [0, 7, 8, 9, 0]⟩ 1 = some 2 ∧
    rg_get_nth_move ⟨1, 4, 3, 5, [0, 7, 8, 9, 0]⟩ 1 = some ⟨2, 3, 2⟩ ∧
    rg_get_nth_subs ⟨1, 4, 3, 5, [0, 7, 8, 9, 0]⟩ 1 = [(4, 2)] ∧
    ∃ item rg1, rg_get_nth ⟨1, 4, 3, 5, [0, 7, 8, 9, 0]⟩ 1 = some (item, rg1) ∧
      (∀ idx, rg_get_nth_idx ⟨1, 4, 3, 5, [0, 7, 8, 9, 0]⟩ 1 = some idx →
        idx < 5 ∧ rg_nth [0, 7, 8, 9, 0] idx = some item) ∧
      (∀ mv, rg_get_nth_move ⟨1, 4, 3, 5, [0, 7, 8, 9, 0]⟩ 1 = some mv →
        0 < mv.n ∧ mv.src + mv.n ≤ 5 ∧ mv.dst + mv.n ≤ 5 ∧
          (1 < 4 → mv.src + mv.n - 1 = 4 ∧ 4 < 5)) ∧
      (∀ p, p ∈ rg_get_nth_subs ⟨1, 4, 3, 5, [0, 7, 8, 9, 0]⟩ 1 → p.2 ≤ p.1) :=
  ⟨by decide, by decide, by decide, by decide, by decide,
    get_nth_index_safe ⟨1, 4, 3, 5, [0, 7, 8, 9, 0]⟩ 1 (by decide) (by decide)⟩
end Ringer
